import Mathlib

/-!
# Verification of the spotify-summary transcription pipeline

Shallow embedding of the transcription job pipeline of `src/server.js`
(podcast transcription server).  JavaScript strings are modelled as
`List Char`; the JS operations used by the code — `split(' ')`,
`Array.join(' ')`, `trim()` — are modelled by structurally recursive
functions with the same semantics (in particular, `split(' ')` splits on
every single space character, producing empty fragments between adjacent
separators, and `''.split(' ')` yields `['']`).

Sections:
* string primitives;
* `mergeTranscriptions` (server.js lines 476–499) and its properties;
* the chunking policy `splitAudioIntoChunks` (lines 279–313);
* a trace semantics of the `/api/transcript` job pipeline
  (lines 600–743), parameterised by an oracle giving the outcome of
  every external call;
* the job-table eviction behaviour of `/api/result/:jobId`
  (lines 746–765).
-/

namespace SpotifySummary

/-- Shorthand: the character list of a string literal. -/
def str (s : String) : List Char := s.data

/-! ## JS string primitives -/

/-- JS `s.split(' ')`: split on every single space character.
Adjacent separators produce empty fragments; `''.split(' ') = ['']`. -/
def jsSplitSpace : List Char → List (List Char)
  | [] => [[]]
  | c :: rest =>
    if c = ' ' then [] :: jsSplitSpace rest
    else
      match jsSplitSpace rest with
      | t :: ts => (c :: t) :: ts
      | [] => [[c]]

/-- JS `arr.join(' ')`. -/
def jsJoinSpace : List (List Char) → List Char
  | [] => []
  | [t] => t
  | t :: ts => t ++ ' ' :: jsJoinSpace ts

/-- The white-space characters removed by JS `String.prototype.trim`
(ECMAScript WhiteSpace and LineTerminator code points that matter for
audio-transcript text). -/
def jsIsWhitespace (c : Char) : Bool :=
  c = ' ' || c = '\t' || c = '\n' || c = '\r' ||
  c = '\x0b' || c = '\x0c' || c = ' ' || c = '﻿'

/-- JS `s.trim()`: drop leading and trailing white space. -/
def jsTrim (s : List Char) : List Char :=
  ((s.dropWhile jsIsWhitespace).reverse.dropWhile jsIsWhitespace).reverse

/-! ## Constants (server.js lines 22–24) -/

/-- `MAX_FILE_SIZE_MB = 25` — Groq free tier limit. -/
def MAX_FILE_SIZE_MB : ℚ := 25

/-- `CHUNK_DURATION_SECONDS = 600`. -/
def CHUNK_DURATION_SECONDS : ℕ := 600

/-- `CHUNK_OVERLAP_SECONDS = 10`. -/
def CHUNK_OVERLAP_SECONDS : ℕ := 10

/-! ## MergeEngine: `mergeTranscriptions` (server.js lines 476–499) -/

/-- A per-segment transcript: the segment index (the spec's
`SegmentTranscript` carries it; the code's Groq response object does not)
and the transcribed text. -/
structure SegmentTranscript where
  index : ℕ
  text : List Char
deriving DecidableEq, Repr

/-- `const overlapWords = Math.ceil(CHUNK_OVERLAP_SECONDS * 2)` — the
argument is the integer 20, whose ceiling is itself. -/
def overlapWords : ℕ := CHUNK_OVERLAP_SECONDS * 2

/-- The per-chunk overlap removal of `mergeTranscriptions`:
`text.split(' ')`, drop the first `overlapWords` fragments, rejoin. -/
def dropOverlapTokens (text : List Char) : List Char :=
  jsJoinSpace ((jsSplitSpace text).drop overlapWords)

/-- `mergeTranscriptions(transcriptions)` (server.js lines 476–499):
a single transcript's text is returned unchanged; otherwise the first
text seeds the accumulator and each later chunk contributes
`' ' + chunk.split(' ').slice(overlapWords).join(' ')`, with the result
trimmed. -/
def mergeTranscriptions : List SegmentTranscript → List Char
  | [t] => t.text
  | [] => jsTrim []
  | t :: rest =>
    jsTrim (rest.foldl (fun acc u => acc ++ ' ' :: dropOverlapTokens u.text) t.text)

/-! ### Spec-side definitions used to state the claims against the code -/

/-- Split on runs of white space (the spec's "whitespace-delimited
tokens"): like `jsSplitSpace` but for any white-space character. -/
def splitWsAll : List Char → List (List Char)
  | [] => [[]]
  | c :: rest =>
    if jsIsWhitespace c then [] :: splitWsAll rest
    else
      match splitWsAll rest with
      | t :: ts => (c :: t) :: ts
      | [] => [[c]]

/-- Whitespace-delimited tokens: maximal runs of non-white-space. -/
def wsTokens (s : List Char) : List (List Char) :=
  (splitWsAll s).filter (fun t => ¬ t.isEmpty)

/-- C2's reading of overlap removal: discard the first `overlapWords`
whitespace-delimited tokens. -/
def specDropOverlap (text : List Char) : List Char :=
  jsJoinSpace ((wsTokens text).drop overlapWords)

/-- The merge result demanded by claim C2 (first text verbatim, then for
each later transcript a single space and the text with its first 20
whitespace-delimited tokens discarded, result trimmed). -/
def claimC2Merge : List SegmentTranscript → List Char
  | [] => jsTrim []
  | t :: rest =>
    jsTrim (rest.foldl (fun acc u => acc ++ ' ' :: specDropOverlap u.text) t.text)

/-- `index` list is the contiguous range `0..N-1` (spec §3 invariant on
the input of MergeEngine). -/
def contiguousIndices (ts : List SegmentTranscript) : Bool :=
  ts.map (fun t => t.index) = List.range ts.length

/-- Modelled from the spec: the MergeEngine contract of §4.4/§7, under
which a non-contiguous index set must fail with `MergeError` (`none`)
instead of merging.  No such check exists anywhere in `server.js`; this
definition follows the spec's words and is compared with the code's
`mergeTranscriptions`. -/
def specMergeWithIndexCheck (ts : List SegmentTranscript) : Option (List Char) :=
  if contiguousIndices ts then some (mergeTranscriptions ts) else none

/-! ### Merge lemmas -/

theorem foldl_append_chunks (f : SegmentTranscript → List Char) :
    ∀ (l : List SegmentTranscript) (a : List Char),
      l.foldl (fun acc u => acc ++ f u) a = a ++ (l.map f).flatten := by
  intro l
  induction l with
  | nil => intro a; simp
  | cons u us ih => intro a; simp [ih, List.append_assoc]

theorem dropOverlapTokens_of_few_tokens (text : List Char)
    (h : (jsSplitSpace text).length ≤ overlapWords) :
    dropOverlapTokens text = [] := by
  unfold dropOverlapTokens
  rw [List.drop_eq_nil_of_le h]
  rfl

/-! ### Claim C7 — merging a single transcript -/

/-- C7 counterexample: the claim says the single-transcript result has
"whitespace at the edges trimmed", but `mergeTranscriptions` returns the
text of a singleton list verbatim, without trimming: on `" a "` the code
yields `" a "`, not the trimmed `"a"`. -/
theorem C7_counterexample :
    mergeTranscriptions [⟨0, str " a "⟩] ≠ jsTrim (str " a ") := by
  decide

/-- C7 (amended): for every single-element list of segment transcripts,
`mergeTranscriptions` returns that transcript's text exactly unchanged;
edge whitespace is NOT trimmed in the single-segment case. -/
theorem C7_single_transcript_verbatim (t : SegmentTranscript) :
    mergeTranscriptions [t] = t.text := rfl

/-! ### Claim C2 — merge of N > 1 transcripts -/

/-- C2 counterexample: the claim discards the first 20
*whitespace-delimited* tokens of each later transcript, but the code
splits on single spaces only, counting the empty fragments between
adjacent spaces.  On a second transcript of 20 spaces followed by `"x"`,
the code keeps `"x"` (its 21st space-split fragment) while the claimed
whitespace tokenisation would discard the sole token `"x"`. -/
theorem C2_counterexample :
    mergeTranscriptions
        [⟨0, str "seed"⟩, ⟨1, List.replicate 20 ' ' ++ str "x"⟩] ≠
      claimC2Merge
        [⟨0, str "seed"⟩, ⟨1, List.replicate 20 ' ' ++ str "x"⟩] := by
  decide

/-- C2 (amended): for every list of N > 1 segment transcripts,
`mergeTranscriptions` returns the first transcript's text followed, for
each subsequent transcript in list order, by a single space and that
transcript's text with its first 20 fragments discarded — where the
fragments come from splitting on single space characters (U+0020) only,
so consecutive spaces contribute empty fragments that count toward the
20 — with the whole result trimmed.  Determinism is immediate:
`mergeTranscriptions` is a pure function of its argument. -/
theorem C2_merge_formula (t : SegmentTranscript) (rest : List SegmentTranscript)
    (h : rest ≠ []) :
    mergeTranscriptions (t :: rest) =
      jsTrim (t.text ++
        (rest.map (fun u => ' ' :: dropOverlapTokens u.text)).flatten) := by
  match rest, h with
  | u :: us, _ =>
    show jsTrim ((u :: us).foldl
        (fun acc v => acc ++ ' ' :: dropOverlapTokens v.text) t.text) = _
    rw [foldl_append_chunks (fun v => ' ' :: dropOverlapTokens v.text)]

/-- C2 witness: the amended formula evaluated on a concrete two-element
input. -/
theorem C2_merge_formula_witness :
    ([⟨1, str "b"⟩] : List SegmentTranscript) ≠ [] ∧
      mergeTranscriptions [⟨0, str "a"⟩, ⟨1, str "b"⟩] =
        jsTrim (str "a" ++
          ([⟨1, str "b"⟩].map
            (fun u : SegmentTranscript => ' ' :: dropOverlapTokens u.text)).flatten) :=
  ⟨by decide, C2_merge_formula ⟨0, str "a"⟩ [⟨1, str "b"⟩] (by decide)⟩

/-! ### Claim C3 — gapped index sets -/

/-- C3 counterexample: on the index set `{0,2}` (index 1 missing) the
spec-modelled MergeEngine must fail with `MergeError` (`none`), but the
code's `mergeTranscriptions` silently returns a merged string — the gap
is skipped without any error. -/
theorem C3_counterexample :
    specMergeWithIndexCheck [⟨0, str "alpha"⟩, ⟨2, str "beta"⟩] = none ∧
      mergeTranscriptions [⟨0, str "alpha"⟩, ⟨2, str "beta"⟩] = str "alpha" := by
  constructor
  · decide
  · decide

/-- C3 (amended): `mergeTranscriptions` never inspects segment indices —
its result depends only on the texts, so any reindexing (including ones
that create gaps) yields the same successfully merged string; no
`MergeError` exists in the code. -/
theorem C3_merge_ignores_indices (ts : List SegmentTranscript) (f : ℕ → ℕ) :
    mergeTranscriptions (ts.map fun t => ⟨f t.index, t.text⟩) =
      mergeTranscriptions ts := by
  match ts with
  | [] => rfl
  | [t] => rfl
  | t :: u :: us =>
    show jsTrim (((u :: us).map fun v => (⟨f v.index, v.text⟩ : SegmentTranscript)).foldl
        (fun acc v => acc ++ ' ' :: dropOverlapTokens v.text)
        ((⟨f t.index, t.text⟩ : SegmentTranscript)).text) = _
    rw [List.foldl_map]
    rfl

/-! ### Claim C10 — short later chunks vanish entirely -/

/-- C10: any transcript after the first whose text splits on single
spaces into at most 20 fragments contributes no text at all to the
merged result: replacing its entire text by the empty string leaves
`mergeTranscriptions` unchanged, and the merge still succeeds silently. -/
theorem mergeTranscriptions_cons_of_ne (t : SegmentTranscript)
    (rest : List SegmentTranscript) (h : rest ≠ []) :
    mergeTranscriptions (t :: rest) =
      jsTrim (rest.foldl (fun acc u => acc ++ ' ' :: dropOverlapTokens u.text) t.text) := by
  match rest, h with
  | u :: us, _ => rfl

theorem C10_short_chunk_vanishes (pre suf : List SegmentTranscript)
    (t : SegmentTranscript) (hpre : pre ≠ [])
    (hshort : (jsSplitSpace t.text).length ≤ 20) :
    mergeTranscriptions (pre ++ t :: suf) =
      mergeTranscriptions (pre ++ ⟨t.index, []⟩ :: suf) := by
  match pre, hpre with
  | p :: ps, _ =>
    have hdrop : dropOverlapTokens t.text = [] :=
      dropOverlapTokens_of_few_tokens t.text hshort
    have hdrop0 : dropOverlapTokens [] = [] := by decide
    rw [List.cons_append, List.cons_append,
      mergeTranscriptions_cons_of_ne _ _ (by simp),
      mergeTranscriptions_cons_of_ne _ _ (by simp),
      List.foldl_append, List.foldl_append]
    simp only [List.foldl_cons, hdrop, hdrop0]

/-- C10 witness: a concrete instance — a one-token second chunk is
dropped entirely. -/
theorem C10_short_chunk_vanishes_witness :
    ([⟨0, str "a b"⟩] : List SegmentTranscript) ≠ [] ∧
      (jsSplitSpace (str "tiny")).length ≤ 20 ∧
      mergeTranscriptions ([⟨0, str "a b"⟩] ++ ⟨1, str "tiny"⟩ :: []) =
        mergeTranscriptions ([⟨0, str "a b"⟩] ++ ⟨1, []⟩ :: []) :=
  ⟨by decide, by decide,
    C10_short_chunk_vanishes [⟨0, str "a b"⟩] [] ⟨1, str "tiny"⟩
      (by decide) (by decide)⟩

/-! ## Segmenter: `splitAudioIntoChunks` (server.js lines 279–313)

The audio duration reported by ffprobe is modelled as a rational number
of seconds.  Each produced chunk is the pair (ffmpeg `setStartTime`,
ffmpeg `setDuration`): `startTime = max(0, i*600 - 10)` and requested
duration `600 + 10`. -/

/-- `numChunks = Math.ceil(duration / CHUNK_DURATION_SECONDS)`. -/
def numChunks (duration : ℚ) : ℕ := ⌈duration / (CHUNK_DURATION_SECONDS : ℚ)⌉₊

/-- `startTime = Math.max(0, i * CHUNK_DURATION_SECONDS - CHUNK_OVERLAP_SECONDS)`. -/
def chunkStartTime (i : ℕ) : ℚ :=
  max 0 ((i : ℚ) * (CHUNK_DURATION_SECONDS : ℚ) - (CHUNK_OVERLAP_SECONDS : ℚ))

/-- `setDuration(CHUNK_DURATION_SECONDS + CHUNK_OVERLAP_SECONDS)`. -/
def chunkSpan : ℚ := (CHUNK_DURATION_SECONDS : ℚ) + (CHUNK_OVERLAP_SECONDS : ℚ)

/-- The list of (start, requested duration) windows produced by
`splitAudioIntoChunks` for a source of the given duration. -/
def splitAudioIntoChunks (duration : ℚ) : List (ℚ × ℚ) :=
  (List.range (numChunks duration)).map fun i => (chunkStartTime i, chunkSpan)

/-- The end, in source time, of the audio actually contained in chunk
`i`: ffmpeg stops at the requested duration or at the end of the file,
whichever comes first. -/
def chunkSourceEnd (duration : ℚ) (i : ℕ) : ℚ :=
  min (chunkStartTime i + chunkSpan) duration

/-- Duration of source audio shared by consecutive chunks `i` and
`i+1` (their start times are non-decreasing, so the intersection is
`[start (i+1), end i]`, clamped at zero). -/
def chunkOverlap (duration : ℚ) (i : ℕ) : ℚ :=
  max 0 (chunkSourceEnd duration i - chunkStartTime (i + 1))

theorem numChunks_1800 : numChunks 1800 = 3 := by
  unfold numChunks CHUNK_DURATION_SECONDS
  norm_num

theorem numChunks_1200 : numChunks 1200 = 2 := by
  unfold numChunks CHUNK_DURATION_SECONDS
  norm_num

theorem chunkStartTime_zero : chunkStartTime 0 = 0 := by
  unfold chunkStartTime CHUNK_DURATION_SECONDS CHUNK_OVERLAP_SECONDS
  rw [max_eq_left (by norm_num)]

theorem chunkStartTime_of_pos (i : ℕ) (h : 1 ≤ i) :
    chunkStartTime i = (i : ℚ) * 600 - 10 := by
  unfold chunkStartTime CHUNK_DURATION_SECONDS CHUNK_OVERLAP_SECONDS
  push_cast
  rw [max_eq_right]
  have : (1 : ℚ) ≤ (i : ℚ) := by exact_mod_cast h
  nlinarith

/-- From `i + 1 < numChunks D`: the source extends strictly past the
nominal end of chunk `i + 1`'s predecessor boundary. -/
theorem duration_large_of_lt_numChunks (D : ℚ) (i : ℕ)
    (h : i + 1 < numChunks D) : 600 * ((i : ℚ) + 1) < D := by
  unfold numChunks CHUNK_DURATION_SECONDS at h
  have h2 : ((i + 1 : ℕ) : ℚ) < D / 600 := by
    exact_mod_cast Nat.lt_ceil.mp h
  push_cast at h2
  nlinarith

/-- C1 counterexample: for a 1200-second source the splitter produces
two chunks, `[0, 610]` and `[590, 1200]`, whose shared source audio is
20 seconds — not the 10 seconds the claim asserts for every consecutive
pair. -/
theorem C1_counterexample :
    0 + 1 < numChunks 1200 ∧ chunkOverlap 1200 0 = 20 := by
  constructor
  · rw [numChunks_1200]; decide
  · unfold chunkOverlap chunkSourceEnd chunkSpan
    rw [chunkStartTime_zero, chunkStartTime_of_pos 1 (by decide)]
    unfold CHUNK_DURATION_SECONDS CHUNK_OVERLAP_SECONDS
    norm_num

/-- C1 (amended): for every duration D requiring splitting (more than
one chunk), `splitAudioIntoChunks` produces exactly `⌈D/600⌉₊` windows;
*every* window `i` starts at `max(0, i*600 − 10)` and requests
`600 + 10` seconds; every consecutive pair `(i, i+1)` with `i ≥ 1`
overlaps by exactly 10 seconds of source audio, but the first pair
`(0, 1)` overlaps by `min D 610 − 590` seconds — strictly more than 10
(20 seconds whenever `D ≥ 610`) — because chunk 0 is not shifted back
yet still spans 610 seconds. -/
theorem C1_chunk_windows (D : ℚ) (hD : 1 < numChunks D) :
    (splitAudioIntoChunks D).length = ⌈D / 600⌉₊ ∧
    (∀ i, ∀ hi : i < numChunks D,
      (splitAudioIntoChunks D).get ⟨i, by
          simpa [splitAudioIntoChunks] using hi⟩ =
        (max 0 ((i : ℚ) * 600 - 10), 610)) ∧
    (∀ i, 1 ≤ i → i + 1 < numChunks D → chunkOverlap D i = 10) ∧
    chunkOverlap D 0 = min D 610 - 590 ∧
    10 < chunkOverlap D 0 := by
  have hD600 : (600 : ℚ) < D := by
    have h := duration_large_of_lt_numChunks D 0 (by simpa using hD)
    push_cast at h
    linarith
  refine ⟨?_, ?_, ?_, ?_, ?_⟩
  · simp [splitAudioIntoChunks, numChunks, CHUNK_DURATION_SECONDS]
  · intro i hi
    simp only [splitAudioIntoChunks, List.get_eq_getElem, List.getElem_map,
      List.getElem_range]
    unfold chunkStartTime chunkSpan CHUNK_DURATION_SECONDS CHUNK_OVERLAP_SECONDS
    push_cast
    norm_num [Prod.ext_iff]
  · intro i h1 h2
    have hD1 : 600 * ((i : ℚ) + 1) < D := duration_large_of_lt_numChunks D i h2
    have hi1 : (1 : ℚ) ≤ (i : ℚ) := by exact_mod_cast h1
    unfold chunkOverlap chunkSourceEnd chunkSpan
    rw [chunkStartTime_of_pos i h1, chunkStartTime_of_pos (i + 1) (by omega)]
    unfold CHUNK_DURATION_SECONDS CHUNK_OVERLAP_SECONDS
    push_cast
    rw [min_eq_left (by nlinarith)]
    rw [max_eq_right (by nlinarith)]
    ring
  · unfold chunkOverlap chunkSourceEnd chunkSpan
    rw [chunkStartTime_zero, chunkStartTime_of_pos 1 (by decide)]
    unfold CHUNK_DURATION_SECONDS CHUNK_OVERLAP_SECONDS
    push_cast
    rw [zero_add, min_comm]
    have h590 : (590 : ℚ) ≤ D ⊓ (600 + 10) := le_min (by linarith) (by norm_num)
    rw [max_eq_right (by linarith)]
    norm_num
  · unfold chunkOverlap chunkSourceEnd chunkSpan
    rw [chunkStartTime_zero, chunkStartTime_of_pos 1 (by decide)]
    unfold CHUNK_DURATION_SECONDS CHUNK_OVERLAP_SECONDS
    push_cast
    rw [zero_add]
    have h600 : (600 : ℚ) < (600 + 10) ⊓ D := lt_min (by norm_num) hD600
    have hx : (10 : ℚ) < (600 + 10) ⊓ D - (1 * 600 - 10) := by linarith
    calc (10 : ℚ) < (600 + 10) ⊓ D - (1 * 600 - 10) := hx
      _ ≤ 0 ⊔ ((600 + 10) ⊓ D - (1 * 600 - 10)) := le_max_right _ _

/-- C1 witness: the amended statement instantiated at D = 1800 s (three
chunks): the splitting hypothesis holds, the middle consecutive pair
overlaps by 10 s, and the first pair by `min 1800 610 − 590 = 20` s. -/
theorem C1_chunk_windows_witness :
    1 < numChunks 1800 ∧
      chunkOverlap 1800 1 = 10 ∧ chunkOverlap 1800 0 = min 1800 610 - 590 :=
  have hD : 1 < numChunks 1800 := by rw [numChunks_1800]; decide
  ⟨hD,
    (C1_chunk_windows 1800 hD).2.2.1 1 (le_refl 1)
      (by rw [numChunks_1800]; decide),
    (C1_chunk_windows 1800 hD).2.2.2.1⟩

/-! ## Trace semantics of the `/api/transcript` job pipeline

The handler (server.js lines 600–743) is modelled as a pure function of
an *oracle* giving the outcome of every external interaction (Spotify
metadata fetch, RSS search, feed parse, download, ffprobe size/duration,
per-chunk ffmpeg transcode, per-chunk Groq call, Gemini summarisation).
Running the job produces the ordered list of `updateProgress` events,
the set of scratch files created and deleted, the list of files passed
to the transcription API, and the terminal flags of the progress store.
-/

/-- One `updateProgress(jobId, step, percentage, message)` call. -/
structure Event where
  step : String
  pct : ℕ
  msg : String
deriving DecidableEq, Repr

def ev (step : String) (pct : ℕ) (msg : String) : Event := ⟨step, pct, msg⟩

/-- JS `Math.round(num/den)` for non-negative integers:
`⌊num/den + 1/2⌋` (round half up). -/
def jsRound (num den : ℕ) : ℕ := (2 * num + den) / (2 * den)

/-- `Math.round(((i + 1) / numChunks) * 100)` — the per-chunk progress
percentage used by both the splitter and the transcription loop. -/
def chunkPct (i n : ℕ) : ℕ := jsRound ((i + 1) * 100) n

/-- Scratch files created by a job: the downloaded original, the
`_compressed.mp3` variant of a file, and the `_chunk_i.mp3` segments of
a file (the JS names, built by suffixing, are distinct in exactly this
way). -/
inductive FileId
  | original
  | compressed (of : FileId)
  | chunk (of : FileId) (i : ℕ)
deriving DecidableEq, Repr

/-- Result of one pipeline phase: the progress events it emitted, the
scratch files it created and deleted, the files it submitted for
transcription, and its value or thrown error message. -/
structure PhaseOut (α : Type) where
  events : List Event
  created : List FileId
  deleted : List FileId
  transcribed : List FileId
  val : Except String α

def PhaseOut.bind (m : PhaseOut α) (f : α → PhaseOut β) : PhaseOut β :=
  match m.val with
  | .error e => ⟨m.events, m.created, m.deleted, m.transcribed, .error e⟩
  | .ok a =>
    let r := f a
    ⟨m.events ++ r.events, m.created ++ r.created, m.deleted ++ r.deleted,
      m.transcribed ++ r.transcribed, r.val⟩

instance : Monad PhaseOut where
  pure a := ⟨[], [], [], [], .ok a⟩
  bind := PhaseOut.bind

def emit1 (e : Event) : PhaseOut Unit := ⟨[e], [], [], [], .ok ()⟩

def emitAll (es : List Event) : PhaseOut Unit := ⟨es, [], [], [], .ok ()⟩

def createFile (f : FileId) : PhaseOut Unit := ⟨[], [f], [], [], .ok ()⟩

/-- `cleanupFile` (server.js lines 316–323): `fs.unlink`, errors logged
and swallowed; modelled as removing the file. -/
def deleteFile (f : FileId) : PhaseOut Unit := ⟨[], [], [f], [], .ok ()⟩

def recordTranscribed (f : FileId) : PhaseOut Unit := ⟨[], [], [], [f], .ok ()⟩

def liftExc (r : Except String α) : PhaseOut α := ⟨[], [], [], [], r⟩

def throwMsg (m : String) : PhaseOut α := ⟨[], [], [], [], .error m⟩

/-- Outcome of `summariseWithGemini` (server.js lines 344–424): the
function catches its own errors and never throws. -/
inductive SummaryOutcome
  | noKey
  | geminiError
  | emptyResponse
  | sent
deriving DecidableEq, Repr

/-- The episode metadata returned by `spotifyUrlInfo.getData`. -/
structure SpotifyData where
  name : String
  subtitle : String
deriving DecidableEq, Repr

/-- Outcomes of every external interaction of one job, fixed up front.
`Except.error m` models a thrown/rejected promise with message `m`. -/
structure Oracle where
  /-- `spotifyUrlInfo.getData`: throws, returns null, or returns data. -/
  spotifyData : Except String (Option SpotifyData)
  /-- the optional `rssUrl` field of the request body. -/
  providedRssUrl : Option String
  /-- `findRssFeed` (catches its own errors; returns a URL or null). -/
  rssFound : Option String
  /-- `rssParser.parseURL`. -/
  feedParse : Except String Unit
  /-- `targetEpisode.enclosure?.url`. -/
  audioUrl : Option String
  /-- the `axios(...)` request itself (before the file is created). -/
  downloadRequest : Except String Unit
  /-- the `onDownloadProgress` events: (loaded, total) pairs. -/
  downloadProgress : List (ℕ × ℕ)
  /-- the write stream: `finish` or `error` (file already created). -/
  downloadWrite : Except String Unit
  /-- `getFileSizeMB(audioPath)`. -/
  fileSizeMB : ℚ
  /-- `getAudioDuration(audioPath)` (ffprobe, seconds). -/
  duration : ℚ
  /-- whether the `ffmpeg` compression `exec` succeeds. -/
  compressOk : Bool
  /-- `getFileSizeMB(compressedPath)` when compression succeeded. -/
  compressedSizeMB : ℚ
  /-- `getAudioDuration(compressedPath)` when compression succeeded. -/
  compressedDuration : ℚ
  /-- the ffmpeg transcode of chunk `i`. -/
  splitChunk : ℕ → Except String Unit
  /-- the Groq call for chunk `i` (returns the transcript text). -/
  transcribeChunk : ℕ → Except String String
  /-- the Groq call in the single-file path. -/
  transcribeWhole : Except String String
  /-- `summariseWithGemini` (never throws). -/
  summary : SummaryOutcome

/-! ### The pipeline phases -/

/-- Step 1 (lines 617–627): fetch Spotify metadata.  A null response is
an early-return error path; a throw lands in the catch — both publish
the same shaped `error` event at the end of the run. -/
def metaP (o : Oracle) : PhaseOut SpotifyData :=
  match o.spotifyData with
  | .error m =>
    ⟨[ev "metadata" 0 "Fetching Spotify metadata..."], [], [], [], .error m⟩
  | .ok none =>
    ⟨[ev "metadata" 0 "Fetching Spotify metadata..."], [], [], [],
      .error "Could not fetch episode data from Spotify"⟩
  | .ok (some sd) =>
    ⟨[ev "metadata" 0 "Fetching Spotify metadata...",
      ev "metadata" 100 "Metadata fetched"], [], [], [], .ok sd⟩

/-- Step 2 (lines 629–651): find the RSS feed unless one was provided. -/
def rssP (o : Oracle) (sd : SpotifyData) : PhaseOut Unit :=
  match o.providedRssUrl with
  | some _ => emit1 (ev "rss" 100 "Using provided RSS feed")
  | none =>
    match o.rssFound with
    | none =>
      ⟨[ev "rss" 0 "Finding RSS feed..."], [], [], [],
        .error ("Unable to find RSS feed for \"" ++ sd.subtitle ++
          "\". This podcast may not be available in Apple Podcasts or Podcast Index directories.")⟩
    | some _ =>
      emitAll [ev "rss" 0 "Finding RSS feed...", ev "rss" 100 "RSS feed found"]

/-- Step 3 (lines 653–692): parse the feed, pick the best-matching
episode, and require an enclosure URL. -/
def parseP (o : Oracle) : PhaseOut Unit :=
  match o.feedParse with
  | .error m => ⟨[ev "parse" 0 "Parsing RSS feed..."], [], [], [], .error m⟩
  | .ok _ =>
    match o.audioUrl with
    | none =>
      ⟨[ev "parse" 0 "Parsing RSS feed..."], [], [], [],
        .error "No audio URL found for this episode"⟩
    | some _ =>
      emitAll [ev "parse" 0 "Parsing RSS feed...",
        ev "parse" 100 "RSS parsed successfully"]

/-- Steps 1–3 composed. -/
def preP (o : Oracle) : PhaseOut Unit := do
  let sd ← metaP o
  rssP o sd
  parseP o

/-- The `onDownloadProgress` callbacks (lines 242–247): skipped when
`progressEvent.total` is falsy. -/
def dlProgressEvents (l : List (ℕ × ℕ)) : List Event :=
  l.filterMap fun p =>
    if p.2 = 0 then none
    else some (ev "download" (jsRound (p.1 * 100) p.2)
      ("Downloading audio... " ++ toString (jsRound (p.1 * 100) p.2) ++ "%"))

/-- Step 4, `downloadAudio` (lines 231–260).  The write stream creates
the file as soon as the request resolves, so a stream error leaves the
partial file behind — and `tempFilePath` is only assigned *after* the
promise resolves, so the catch block cannot clean it up. -/
def dlP (o : Oracle) : PhaseOut FileId :=
  match o.downloadRequest with
  | .error m => ⟨[ev "download" 0 "Starting download..."], [], [], [], .error m⟩
  | .ok _ =>
    match o.downloadWrite with
    | .error m =>
      ⟨ev "download" 0 "Starting download..." :: dlProgressEvents o.downloadProgress,
        [FileId.original], [], [], .error m⟩
    | .ok _ =>
      ⟨(ev "download" 0 "Starting download..." :: dlProgressEvents o.downloadProgress) ++
          [ev "download" 100 "Download complete"],
        [FileId.original], [], [], .ok FileId.original⟩

/-- The chunk-creation loop of `splitAudioIntoChunks` (lines 286–309):
chunk `i` is transcoded (failure rejects and aborts the job), the file
appears, and a progress event is published.  `fuel` is the number of
chunks still to create. -/
def splitLoop (o : Oracle) (input : FileId) (n : ℕ) : ℕ → ℕ → PhaseOut (List FileId)
  | _, 0 => pure []
  | i, fuel + 1 =>
    match o.splitChunk i with
    | .error m => throwMsg m
    | .ok _ => do
      createFile (FileId.chunk input i)
      emit1 (ev "splitting" (chunkPct i n)
        ("Created chunk " ++ toString (i + 1) ++ "/" ++ toString n))
      let rest ← splitLoop o input n (i + 1) fuel
      pure (FileId.chunk input i :: rest)

/-- `splitAudioIntoChunks(inputPath, jobId)` (lines 279–313) as run by
the pipeline on a file of the given duration. -/
def splitP (o : Oracle) (input : FileId) (dur : ℚ) : PhaseOut (List FileId) := do
  let n := numChunks dur
  emit1 (ev "splitting" 0 ("Splitting into " ++ toString n ++ " chunks..."))
  let chunks ← splitLoop o input n 0 n
  emit1 (ev "splitting" 100 "Audio splitting complete")
  pure chunks

/-- `transcribeWithGroq(filepath, i, total, jobId)` (lines 451–473) for
chunk `i` of `n`: publishes `transcribe` at 0, calls Groq, then
publishes the chunk percentage. -/
def transcribeChunkP (o : Oracle) (c : FileId) (i n : ℕ) : PhaseOut String := do
  emit1 (ev "transcribe" 0
    ("Transcribing (chunk " ++ toString (i + 1) ++ "/" ++ toString n ++ ")..."))
  recordTranscribed c
  let t ← liftExc (o.transcribeChunk i)
  emit1 (ev "transcribe" (chunkPct i n)
    ("Transcribed chunk " ++ toString (i + 1) ++ "/" ++ toString n))
  pure t

/-- `transcribeWithGroq(filepath, null, null, jobId)`: the single-file
variant. -/
def transcribeWholeP (o : Oracle) (c : FileId) : PhaseOut String := do
  emit1 (ev "transcribe" 0 "Transcribing...")
  recordTranscribed c
  let t ← liftExc o.transcribeWhole
  emit1 (ev "transcribe" 100 "Transcription complete")
  pure t

/-- The per-chunk transcription loop (lines 515–521): transcribe chunk
`i`, push the transcript, delete the chunk file.  A Groq failure
rejects *before* the deletion, leaving this and all later chunk files
behind. -/
def transcribeLoop (o : Oracle) (n : ℕ) : List FileId → ℕ → PhaseOut (List SegmentTranscript)
  | [], _ => pure []
  | c :: rest, i => do
    let t ← transcribeChunkP o c i n
    deleteFile c
    let ts ← transcribeLoop o n rest (i + 1)
    pure (⟨i, t.data⟩ :: ts)

/-- Split + transcribe + merge (the chunked paths of
`processTranscription`, lines 507–528 and 534–554). -/
def chunkPipelineP (o : Oracle) (input : FileId) (dur : ℚ) : PhaseOut String := do
  let chunks ← splitP o input dur
  let ts ← transcribeLoop o chunks.length chunks 0
  emit1 (ev "merge" 0 "Merging transcriptions...")
  let merged := mergeTranscriptions ts
  emit1 (ev "merge" 100 "Merge complete")
  pure (String.mk merged)

/-- `compressAudio` (lines 427–448): on exec failure the error is
caught and the *input* path is returned — the one locally recovered
failure of the pipeline.  The `compress` step never reaches 100 in that
case, and no output file is produced. -/
def compressP (o : Oracle) (input : FileId) : PhaseOut FileId :=
  if o.compressOk then
    ⟨[ev "compress" 0 "Compressing audio...",
      ev "compress" 100 "Compression complete"],
      [FileId.compressed input], [], [], .ok (FileId.compressed input)⟩
  else
    ⟨[ev "compress" 0 "Compressing audio..."], [], [], [], .ok input⟩

/-- `processTranscription(audioPath, jobId)` (lines 502–565). -/
def processP (o : Oracle) (audioPath : FileId) : PhaseOut String :=
  if MAX_FILE_SIZE_MB < o.fileSizeMB then
    chunkPipelineP o audioPath o.duration
  else do
    let compressedPath ← compressP o audioPath
    let finalSizeMB := if o.compressOk then o.compressedSizeMB else o.fileSizeMB
    let finalDur := if o.compressOk then o.compressedDuration else o.duration
    if MAX_FILE_SIZE_MB < finalSizeMB then do
      let merged ← chunkPipelineP o compressedPath finalDur
      if compressedPath ≠ audioPath then deleteFile compressedPath else pure ()
      pure merged
    else do
      let t ← transcribeWholeP o compressedPath
      if compressedPath ≠ audioPath then deleteFile compressedPath else pure ()
      pure t

/-- Step 6, `summariseWithGemini` (lines 344–424): all four outcomes
publish `summary` events and return normally. -/
def summariseP (o : Oracle) : PhaseOut Unit :=
  match o.summary with
  | .noKey => emit1 (ev "summary" 100 "Summary skipped (Gemini API key not configured)")
  | .geminiError =>
    emitAll [ev "summary" 0 "Summarising transcript with Gemini...",
      ev "summary" 100 "Could not generate summary (Gemini error)"]
  | .emptyResponse =>
    emitAll [ev "summary" 0 "Summarising transcript with Gemini...",
      ev "summary" 100 "Summary skipped (no response from Gemini)"]
  | .sent =>
    emitAll [ev "summary" 0 "Summarising transcript with Gemini...",
      ev "summary" 90 "Sending summary via email...",
      ev "summary" 100 "Summary sent to email"]

/-- Steps 5–7 (transcription, summarisation, cleanup of the original
download). -/
def postP (o : Oracle) (audioPath : FileId) : PhaseOut String := do
  let transcript ← processP o audioPath
  summariseP o
  deleteFile audioPath
  pure transcript

/-- The terminal observation of one job: the full ordered progress
trace, the scratch files still existing, the files submitted to the
transcription API, and the `result` / `complete` markers of the
progress-store entry. -/
structure JobOutcome where
  trace : List Event
  files : List FileId
  transcribed : List FileId
  result : Bool
  complete : Bool
deriving DecidableEq, Repr

/-- Files created and never deleted. -/
def remainingFiles (created deleted : List FileId) : List FileId :=
  created.filter fun f => decide (f ∉ deleted)

/-- The `/api/transcript` handler (lines 600–743).  Early-return error
paths and the catch block behave identically on the progress store:
publish `error` at 100 with the message and set `complete`.  The catch
additionally deletes `tempFilePath` when it was assigned — i.e. exactly
when `downloadAudio`'s promise had resolved.  (The catch block then
reads the out-of-scope `spotifyData` binding, a `ReferenceError` that
only prevents the error webhook, after the progress store was already
finalised.)  On success the handler deletes the download, publishes
`complete` at 100 and stores the result. -/
def runJob (o : Oracle) : JobOutcome :=
  let pre := preP o
  match pre.val with
  | .error m =>
    ⟨pre.events ++ [ev "error" 100 m],
      remainingFiles pre.created pre.deleted, pre.transcribed, false, true⟩
  | .ok _ =>
    let dl := dlP o
    match dl.val with
    | .error m =>
      ⟨pre.events ++ dl.events ++ [ev "error" 100 m],
        remainingFiles (pre.created ++ dl.created) (pre.deleted ++ dl.deleted),
        pre.transcribed ++ dl.transcribed, false, true⟩
    | .ok path =>
      let post := postP o path
      match post.val with
      | .error m =>
        ⟨pre.events ++ dl.events ++ post.events ++ [ev "error" 100 m],
          remainingFiles (pre.created ++ dl.created ++ post.created)
            (pre.deleted ++ dl.deleted ++ post.deleted ++ [path]),
          pre.transcribed ++ dl.transcribed ++ post.transcribed, false, true⟩
      | .ok _ =>
        ⟨pre.events ++ dl.events ++ post.events ++
            [ev "complete" 100 "Transcription complete!"],
          remainingFiles (pre.created ++ dl.created ++ post.created)
            (pre.deleted ++ dl.deleted ++ post.deleted),
          pre.transcribed ++ dl.transcribed ++ post.transcribed, true, true⟩

/-! ### Infrastructure lemmas on `PhaseOut` -/

theorem phaseBind_eq {α β : Type} (m : PhaseOut α) (f : α → PhaseOut β) :
    m >>= f = PhaseOut.bind m f := rfl

theorem phasePure_eq {α : Type} (a : α) :
    (pure a : PhaseOut α) = ⟨[], [], [], [], .ok a⟩ := rfl

theorem PhaseOut.bind_ok {α β : Type} {m : PhaseOut α} {a : α}
    (h : m.val = .ok a) (f : α → PhaseOut β) :
    m.bind f = ⟨m.events ++ (f a).events, m.created ++ (f a).created,
      m.deleted ++ (f a).deleted, m.transcribed ++ (f a).transcribed,
      (f a).val⟩ := by
  unfold PhaseOut.bind
  rw [h]

theorem PhaseOut.bind_err {α β : Type} {m : PhaseOut α} {e : String}
    (h : m.val = .error e) (f : α → PhaseOut β) :
    m.bind f = ⟨m.events, m.created, m.deleted, m.transcribed, .error e⟩ := by
  unfold PhaseOut.bind
  rw [h]

/-- All events of a phase satisfy `P`. -/
def EventsOK (P : Event → Prop) {α : Type} (p : PhaseOut α) : Prop :=
  ∀ e ∈ p.events, P e

theorem EventsOK.bind {P : Event → Prop} {α β : Type}
    {m : PhaseOut α} {f : α → PhaseOut β}
    (hm : EventsOK P m) (hf : ∀ a, EventsOK P (f a)) :
    EventsOK P (m.bind f) := by
  rcases m with ⟨evs, cr, de, tx, v⟩
  cases v with
  | error e => exact hm
  | ok a =>
    intro e he
    rcases List.mem_append.mp he with h | h
    · exact hm e h
    · exact hf a e h

theorem EventsOK.bind' {P : Event → Prop} {α β : Type}
    {m : PhaseOut α} {f : α → PhaseOut β}
    (hm : EventsOK P m) (hf : ∀ a, m.val = .ok a → EventsOK P (f a)) :
    EventsOK P (m.bind f) := by
  rcases m with ⟨evs, cr, de, tx, v⟩
  cases v with
  | error e => exact hm
  | ok a =>
    intro e he
    rcases List.mem_append.mp he with h | h
    · exact hm e h
    · exact hf a rfl e h

theorem EventsOK_pure {P : Event → Prop} {α : Type} (a : α) :
    EventsOK P (pure a : PhaseOut α) := by
  intro e he
  simp [phasePure_eq] at he

theorem EventsOK_emit1 {P : Event → Prop} {e : Event} (h : P e) :
    EventsOK P (emit1 e) := by
  intro x hx
  simp [emit1] at hx
  rw [hx]
  exact h

theorem EventsOK_emitAll {P : Event → Prop} {es : List Event}
    (h : ∀ e ∈ es, P e) : EventsOK P (emitAll es) := h

theorem EventsOK_createFile {P : Event → Prop} (f : FileId) :
    EventsOK P (createFile f) := by
  intro e he
  simp [createFile] at he

theorem EventsOK_deleteFile {P : Event → Prop} (f : FileId) :
    EventsOK P (deleteFile f) := by
  intro e he
  simp [deleteFile] at he

theorem EventsOK_recordTranscribed {P : Event → Prop} (f : FileId) :
    EventsOK P (recordTranscribed f) := by
  intro e he
  simp [recordTranscribed] at he

theorem EventsOK_liftExc {P : Event → Prop} {α : Type} (r : Except String α) :
    EventsOK P (liftExc r) := by
  intro e he
  simp [liftExc] at he

theorem EventsOK_throwMsg {P : Event → Prop} {α : Type} (m : String) :
    EventsOK P (throwMsg m : PhaseOut α) := by
  intro e he
  simp [throwMsg] at he

theorem EventsOK.imp {P Q : Event → Prop} {α : Type} {p : PhaseOut α}
    (h : ∀ e, P e → Q e) (hp : EventsOK P p) : EventsOK Q p :=
  fun e he => h e (hp e he)

/-- Ordering of two progress events as required by the monotonicity
invariant: if they belong to the same step — other than `transcribe`,
which the code resets to 0 before every chunk — the earlier percentage
is at most the later one. -/
def ProgOrd (a b : Event) : Prop :=
  a.step = b.step ∧ a.step ≠ "transcribe" → a.pct ≤ b.pct

theorem ProgOrd_of_ne {a b : Event} (h : a.step ≠ b.step) : ProgOrd a b :=
  fun hc => absurd hc.1 h

theorem ProgOrd_of_transcribe {a b : Event} (h : a.step = "transcribe") :
    ProgOrd a b := fun hc => absurd h hc.2

theorem ProgOrd_of_le {a b : Event} (h : a.pct ≤ b.pct) : ProgOrd a b :=
  fun _ => h

/-- The percentages published for one step, in publication order. -/
def stepPcts (tr : List Event) (s : String) : List ℕ :=
  (tr.filter fun e => e.step == s).map fun e => e.pct

/-- Monotone non-decreasing, as an executable check. -/
def monoNondec : List ℕ → Bool
  | [] => true
  | [_] => true
  | a :: b :: rest => decide (a ≤ b) && monoNondec (b :: rest)

theorem monoNondec_of_pairwise :
    ∀ {l : List ℕ}, l.Pairwise (· ≤ ·) → monoNondec l = true
  | [], _ => rfl
  | [_], _ => rfl
  | a :: b :: rest, h => by
    rw [List.pairwise_cons] at h
    have hab : a ≤ b := h.1 b (List.mem_cons_self b rest)
    have : monoNondec (b :: rest) = true := monoNondec_of_pairwise h.2
    simp [monoNondec, hab, this]

theorem stepPcts_append (A B : List Event) (s : String) :
    stepPcts (A ++ B) s = stepPcts A s ++ stepPcts B s := by
  simp [stepPcts]

/-- Any trace that is pairwise `ProgOrd` has monotone percentages for
every step other than `transcribe`. -/
theorem stepPcts_mono_of_pairwise (tr : List Event) (s : String)
    (hs : s ≠ "transcribe") (h : tr.Pairwise ProgOrd) :
    monoNondec (stepPcts tr s) = true := by
  apply monoNondec_of_pairwise
  unfold stepPcts
  rw [List.pairwise_map]
  have hf : (tr.filter fun e => e.step == s).Pairwise ProgOrd := h.filter _
  apply hf.imp_of_mem
  intro a b ha hb hab
  have ha' : a.step = s := by
    have := List.of_mem_filter ha
    exact eq_of_beq this
  have hb' : b.step = s := by
    have := List.of_mem_filter hb
    exact eq_of_beq this
  exact hab ⟨ha'.trans hb'.symm, by rw [ha']; exact hs⟩

/-! ### Percentage arithmetic -/

theorem jsRound_le_100 {num den : ℕ} (hden : den ≠ 0) (h : num ≤ 100 * den) :
    jsRound num den ≤ 100 := by
  unfold jsRound
  have h2 : 0 < 2 * den := by omega
  have hlt : 2 * num + den < 101 * (2 * den) := by omega
  have := (Nat.div_lt_iff_lt_mul h2).mpr hlt
  omega

theorem jsRound_mono {n1 n2 den : ℕ} (h : n1 ≤ n2) :
    jsRound n1 den ≤ jsRound n2 den :=
  Nat.div_le_div_right (by omega)

theorem chunkPct_le_100 {i n : ℕ} (h : i + 1 ≤ n) : chunkPct i n ≤ 100 :=
  jsRound_le_100 (by omega) (by omega)

theorem chunkPct_mono {i j n : ℕ} (h : i ≤ j) : chunkPct i n ≤ chunkPct j n :=
  jsRound_mono (by omega)

theorem pairwise_bind {R : Event → Event → Prop} {α β : Type}
    (m : PhaseOut α) (f : α → PhaseOut β)
    (h1 : m.events.Pairwise R)
    (h2 : ∀ a, m.val = .ok a → (f a).events.Pairwise R)
    (h3 : ∀ a, m.val = .ok a → ∀ e ∈ m.events, ∀ e' ∈ (f a).events, R e e') :
    (m.bind f).events.Pairwise R := by
  rcases m with ⟨evs, cr, de, tx, v⟩
  cases v with
  | error e => exact h1
  | ok a =>
    show (evs ++ (f a).events).Pairwise R
    rw [List.pairwise_append]
    exact ⟨h1, h2 a rfl, fun x hx y hy => h3 a rfl x hx y hy⟩

theorem pairwise_one {R : Event → Event → Prop} (a : Event) :
    List.Pairwise R [a] := by simp

theorem pairwise_two {R : Event → Event → Prop} {a b : Event} (h : R a b) :
    List.Pairwise R [a, b] := by simp [h]

theorem pairwise_three {R : Event → Event → Prop} {a b c : Event}
    (hab : R a b) (hac : R a c) (hbc : R b c) :
    List.Pairwise R [a, b, c] := by simp [hab, hac, hbc]

/-! ### Per-phase event facts -/

theorem metaP_events (o : Oracle) :
    EventsOK (fun e => e.step = "metadata" ∧ e.pct ≤ 100) (metaP o) := by
  unfold metaP
  rcases o.spotifyData with m | _ | sd
  · intro e he
    simp [ev] at he
    subst he
    exact ⟨rfl, by norm_num⟩
  · intro e he
    simp [ev] at he
    subst he
    exact ⟨rfl, by norm_num⟩
  · intro e he
    simp [ev] at he
    rcases he with rfl | rfl
    · exact ⟨rfl, by norm_num⟩
    · exact ⟨rfl, by norm_num⟩

theorem metaP_pairwise (o : Oracle) : (metaP o).events.Pairwise ProgOrd := by
  unfold metaP
  rcases o.spotifyData with m | _ | sd
  · exact pairwise_one _
  · exact pairwise_one _
  · exact pairwise_two (ProgOrd_of_le (by decide))

theorem rssP_events (o : Oracle) (sd : SpotifyData) :
    EventsOK (fun e => e.step = "rss" ∧ e.pct ≤ 100) (rssP o sd) := by
  unfold rssP
  rcases o.providedRssUrl with _ | u
  · rcases o.rssFound with _ | u
    · intro e he
      simp [ev] at he
      subst he
      exact ⟨rfl, by norm_num⟩
    · intro e he
      simp [emitAll, ev] at he
      rcases he with rfl | rfl
      · exact ⟨rfl, by norm_num⟩
      · exact ⟨rfl, by norm_num⟩
  · intro e he
    simp [emit1, ev] at he
    subst he
    exact ⟨rfl, by norm_num⟩

theorem rssP_pairwise (o : Oracle) (sd : SpotifyData) :
    (rssP o sd).events.Pairwise ProgOrd := by
  unfold rssP
  rcases o.providedRssUrl with _ | u
  · rcases o.rssFound with _ | u
    · exact pairwise_one _
    · exact pairwise_two (ProgOrd_of_le (by decide))
  · exact pairwise_one _

theorem parseP_events (o : Oracle) :
    EventsOK (fun e => e.step = "parse" ∧ e.pct ≤ 100) (parseP o) := by
  unfold parseP
  rcases o.feedParse with m | _
  · intro e he
    simp [ev] at he
    subst he
    exact ⟨rfl, by norm_num⟩
  · rcases o.audioUrl with _ | u
    · intro e he
      simp [ev] at he
      subst he
      exact ⟨rfl, by norm_num⟩
    · intro e he
      simp [emitAll, ev] at he
      rcases he with rfl | rfl
      · exact ⟨rfl, by norm_num⟩
      · exact ⟨rfl, by norm_num⟩

theorem parseP_pairwise (o : Oracle) : (parseP o).events.Pairwise ProgOrd := by
  unfold parseP
  rcases o.feedParse with m | _
  · exact pairwise_one _
  · rcases o.audioUrl with _ | u
    · exact pairwise_one _
    · exact pairwise_two (ProgOrd_of_le (by decide))

/-- Steps published by the pre-download phase. -/
theorem preP_events (o : Oracle) :
    EventsOK (fun e =>
      (e.step = "metadata" ∨ e.step = "rss" ∨ e.step = "parse") ∧
        e.pct ≤ 100) (preP o) := by
  unfold preP
  simp only [phaseBind_eq]
  apply EventsOK.bind
  · exact (metaP_events o).imp (fun e h => ⟨Or.inl h.1, h.2⟩)
  intro sd
  apply EventsOK.bind
  · exact (rssP_events o sd).imp (fun e h => ⟨Or.inr (Or.inl h.1), h.2⟩)
  intro _
  exact (parseP_events o).imp (fun e h => ⟨Or.inr (Or.inr h.1), h.2⟩)

theorem preP_pairwise (o : Oracle) : (preP o).events.Pairwise ProgOrd := by
  unfold preP
  simp only [phaseBind_eq]
  apply pairwise_bind
  · exact metaP_pairwise o
  · intro sd _
    apply pairwise_bind
    · exact rssP_pairwise o sd
    · intro _ _
      exact parseP_pairwise o
    · intro _ _ e he e' he'
      have h1 := (rssP_events o sd) e he
      have h2 := (parseP_events o) e' he'
      exact ProgOrd_of_ne (by rw [h1.1, h2.1]; decide)
  · intro sd _ e he e' he'
    have h1 := (metaP_events o) e he
    have hco : EventsOK (fun x => (x.step = "rss" ∨ x.step = "parse") ∧ x.pct ≤ 100)
        ((rssP o sd).bind fun _ => parseP o) :=
      EventsOK.bind ((rssP_events o sd).imp (fun x h => ⟨Or.inl h.1, h.2⟩))
        (fun _ => (parseP_events o).imp (fun x h => ⟨Or.inr h.1, h.2⟩))
    have h2 := hco e' he'
    apply ProgOrd_of_ne
    rw [h1.1]
    rcases h2.1 with h | h <;> rw [h] <;> decide

theorem summariseP_events (o : Oracle) :
    EventsOK (fun e => e.step = "summary" ∧ e.pct ≤ 100) (summariseP o) := by
  unfold summariseP
  rcases o.summary
  · intro e he
    simp [emit1, ev] at he
    subst he
    exact ⟨rfl, by norm_num⟩
  · intro e he
    simp [emitAll, ev] at he
    rcases he with rfl | rfl
    · exact ⟨rfl, by norm_num⟩
    · exact ⟨rfl, by norm_num⟩
  · intro e he
    simp [emitAll, ev] at he
    rcases he with rfl | rfl
    · exact ⟨rfl, by norm_num⟩
    · exact ⟨rfl, by norm_num⟩
  · intro e he
    simp [emitAll, ev] at he
    rcases he with rfl | rfl | rfl
    · exact ⟨rfl, by norm_num⟩
    · exact ⟨rfl, by norm_num⟩
    · exact ⟨rfl, by norm_num⟩

theorem summariseP_pairwise (o : Oracle) :
    (summariseP o).events.Pairwise ProgOrd := by
  unfold summariseP
  rcases o.summary
  · exact pairwise_one _
  · exact pairwise_two (ProgOrd_of_le (by decide))
  · exact pairwise_two (ProgOrd_of_le (by decide))
  · exact pairwise_three (ProgOrd_of_le (by decide))
      (ProgOrd_of_le (by decide)) (ProgOrd_of_le (by decide))

theorem compressP_events (o : Oracle) (input : FileId) :
    EventsOK (fun e => e.step = "compress" ∧ e.pct ≤ 100) (compressP o input) := by
  unfold compressP
  rcases o.compressOk
  · intro e he
    simp [ev] at he
    subst he
    exact ⟨rfl, by norm_num⟩
  · intro e he
    simp [ev] at he
    rcases he with rfl | rfl
    · exact ⟨rfl, by norm_num⟩
    · exact ⟨rfl, by norm_num⟩

theorem compressP_pairwise (o : Oracle) (input : FileId) :
    (compressP o input).events.Pairwise ProgOrd := by
  unfold compressP
  rcases o.compressOk
  · exact pairwise_one _
  · exact pairwise_two (ProgOrd_of_le (by decide))

theorem delOpt_events_nil (c : Prop) [Decidable c] (f : FileId) :
    (if c then deleteFile f else pure () : PhaseOut Unit).events = [] := by
  split
  · rfl
  · rfl

theorem EventsOK_delOpt {P : Event → Prop} (c : Prop) [Decidable c] (f : FileId) :
    EventsOK P (if c then deleteFile f else pure () : PhaseOut Unit) := by
  intro e he
  rw [delOpt_events_nil] at he
  simp at he

theorem splitLoop_good (o : Oracle) (input : FileId) (n : ℕ) :
    ∀ (fuel i : ℕ), i + fuel ≤ n →
      EventsOK (fun e => e.step = "splitting" ∧ chunkPct i n ≤ e.pct ∧ e.pct ≤ 100)
        (splitLoop o input n i fuel) ∧
      (splitLoop o input n i fuel).events.Pairwise ProgOrd := by
  intro fuel
  induction fuel with
  | zero =>
    intro i h
    constructor
    · intro e he
      simp [splitLoop, phasePure_eq] at he
    · simp [splitLoop, phasePure_eq]
  | succ fuel ih =>
    intro i h
    rcases hsc : o.splitChunk i with m | u
    · constructor
      · intro e he
        simp [splitLoop, hsc, throwMsg] at he
      · simp [splitLoop, hsc, throwMsg]
    · have hIH := ih (i + 1) (by omega)
      have hpb : chunkPct i n ≤ 100 := chunkPct_le_100 (by omega)
      have hrec : EventsOK (fun e =>
          e.step = "splitting" ∧ chunkPct i n ≤ e.pct ∧ e.pct ≤ 100)
          ((splitLoop o input n (i + 1) fuel).bind
            (fun rest => pure (FileId.chunk input i :: rest))) := by
        apply EventsOK.bind
        · exact hIH.1.imp (fun e hp =>
            ⟨hp.1, le_trans (chunkPct_mono (by omega)) hp.2.1, hp.2.2⟩)
        · intro rest
          exact EventsOK_pure rest
      constructor
      · simp only [splitLoop, hsc, phaseBind_eq]
        apply EventsOK.bind
        · exact EventsOK_createFile _
        intro _
        apply EventsOK.bind
        · exact EventsOK_emit1 ⟨rfl, le_refl _, hpb⟩
        intro _
        exact hrec
      · simp only [splitLoop, hsc, phaseBind_eq]
        apply pairwise_bind
        · simp [createFile]
        · intro _ _
          apply pairwise_bind
          · simp [emit1]
          · intro _ _
            apply pairwise_bind
            · exact hIH.2
            · intro rest _
              simp [phasePure_eq]
            · intro rest _ e _ e' he'
              simp [phasePure_eq] at he'
          · intro _ _ e he e' he'
            simp [emit1, ev] at he
            subst he
            have h2 := hrec e' he'
            exact ProgOrd_of_le (by
              simpa using le_trans (chunkPct_mono (le_refl i)) h2.2.1)
        · intro _ _ e he e' he'
          simp [createFile] at he

theorem splitP_good (o : Oracle) (input : FileId) (dur : ℚ) :
    EventsOK (fun e => e.step = "splitting" ∧ e.pct ≤ 100) (splitP o input dur) ∧
      (splitP o input dur).events.Pairwise ProgOrd := by
  have hloop := splitLoop_good o input (numChunks dur) (numChunks dur) 0 (by omega)
  unfold splitP
  simp only [phaseBind_eq]
  constructor
  · apply EventsOK.bind
    · exact EventsOK_emit1 ⟨rfl, by simp [ev]⟩
    intro _
    apply EventsOK.bind
    · exact hloop.1.imp (fun e hp => ⟨hp.1, hp.2.2⟩)
    intro chunks
    apply EventsOK.bind
    · exact EventsOK_emit1 ⟨rfl, by simp [ev]⟩
    intro _
    exact EventsOK_pure chunks
  · apply pairwise_bind
    · simp [emit1]
    · intro _ _
      apply pairwise_bind
      · exact hloop.2
      · intro chunks _
        apply pairwise_bind
        · simp [emit1]
        · intro _ _
          simp [phasePure_eq]
        · intro _ _ e he e' he'
          simp [phasePure_eq] at he'
      · intro chunks _ e he e' he'
        have h1 := hloop.1 e he
        have h2 : e'.step = "splitting" ∧ e'.pct = 100 := by
          have : e' ∈ ((emit1 (ev "splitting" 100 "Audio splitting complete")).bind
              (fun _ => pure chunks)).events := he'
          simp [emit1, PhaseOut.bind, phasePure_eq, ev] at this
          rw [this]
          exact ⟨rfl, rfl⟩
        exact ProgOrd_of_le (by rw [h2.2]; exact h1.2.2)
    · intro _ _ e he e' he'
      simp [emit1, ev] at he
      subst he
      exact ProgOrd_of_le (by simp)

theorem transcribeChunkP_good (o : Oracle) (c : FileId) (i n : ℕ)
    (h : i + 1 ≤ n) :
    EventsOK (fun e => e.step = "transcribe" ∧ e.pct ≤ 100)
      (transcribeChunkP o c i n) ∧
    (transcribeChunkP o c i n).events.Pairwise ProgOrd := by
  unfold transcribeChunkP
  simp only [phaseBind_eq]
  constructor
  · apply EventsOK.bind
    · exact EventsOK_emit1 ⟨rfl, by simp [ev]⟩
    intro _
    apply EventsOK.bind
    · exact EventsOK_recordTranscribed c
    intro _
    apply EventsOK.bind
    · exact EventsOK_liftExc _
    intro t
    apply EventsOK.bind
    · exact EventsOK_emit1 ⟨rfl, chunkPct_le_100 h⟩
    intro _
    exact EventsOK_pure t
  · apply pairwise_bind
    · simp [emit1]
    · intro _ _
      apply pairwise_bind
      · simp [recordTranscribed]
      · intro _ _
        apply pairwise_bind
        · simp [liftExc]
        · intro t _
          apply pairwise_bind
          · simp [emit1]
          · intro _ _
            simp [phasePure_eq]
          · intro _ _ e he e' he'
            simp [phasePure_eq] at he'
        · intro t _ e he e' he'
          simp [liftExc] at he
      · intro _ _ e he e' he'
        simp [recordTranscribed] at he
    · intro _ _ e he e' he'
      simp [emit1, ev] at he
      subst he
      exact ProgOrd_of_transcribe rfl

theorem transcribeWholeP_good (o : Oracle) (c : FileId) :
    EventsOK (fun e => e.step = "transcribe" ∧ e.pct ≤ 100)
      (transcribeWholeP o c) ∧
    (transcribeWholeP o c).events.Pairwise ProgOrd := by
  unfold transcribeWholeP
  simp only [phaseBind_eq]
  constructor
  · apply EventsOK.bind
    · exact EventsOK_emit1 ⟨rfl, by simp [ev]⟩
    intro _
    apply EventsOK.bind
    · exact EventsOK_recordTranscribed c
    intro _
    apply EventsOK.bind
    · exact EventsOK_liftExc _
    intro t
    apply EventsOK.bind
    · exact EventsOK_emit1 ⟨rfl, by simp [ev]⟩
    intro _
    exact EventsOK_pure t
  · apply pairwise_bind
    · simp [emit1]
    · intro _ _
      apply pairwise_bind
      · simp [recordTranscribed]
      · intro _ _
        apply pairwise_bind
        · simp [liftExc]
        · intro t _
          apply pairwise_bind
          · simp [emit1]
          · intro _ _
            simp [phasePure_eq]
          · intro _ _ e he e' he'
            simp [phasePure_eq] at he'
        · intro t _ e he e' he'
          simp [liftExc] at he
      · intro _ _ e he e' he'
        simp [recordTranscribed] at he
    · intro _ _ e he e' he'
      simp [emit1, ev] at he
      subst he
      exact ProgOrd_of_transcribe rfl

theorem transcribeLoop_good (o : Oracle) (n : ℕ) :
    ∀ (l : List FileId) (i : ℕ), i + l.length ≤ n →
      EventsOK (fun e => e.step = "transcribe" ∧ e.pct ≤ 100)
        (transcribeLoop o n l i) ∧
      (transcribeLoop o n l i).events.Pairwise ProgOrd := by
  intro l
  induction l with
  | nil =>
    intro i h
    constructor
    · intro e he
      simp [transcribeLoop, phasePure_eq] at he
    · simp [transcribeLoop, phasePure_eq]
  | cons c rest ih =>
    intro i h
    have hchunk := transcribeChunkP_good o c i n (by simp at h; omega)
    have hIH := ih (i + 1) (by simp at h ⊢; omega)
    constructor
    · simp only [transcribeLoop, phaseBind_eq]
      apply EventsOK.bind
      · exact hchunk.1
      intro t
      apply EventsOK.bind
      · exact EventsOK_deleteFile c
      intro _
      apply EventsOK.bind
      · exact hIH.1
      intro ts
      exact EventsOK_pure _
    · simp only [transcribeLoop, phaseBind_eq]
      apply pairwise_bind
      · exact hchunk.2
      · intro t _
        apply pairwise_bind
        · simp [deleteFile]
        · intro _ _
          apply pairwise_bind
          · exact hIH.2
          · intro ts _
            simp [phasePure_eq]
          · intro ts _ e he e' he'
            simp [phasePure_eq] at he'
        · intro _ _ e he e' he'
          simp [deleteFile] at he
      · intro t _ e he e' he'
        have h1 := hchunk.1 e he
        exact ProgOrd_of_transcribe h1.1

theorem chunkPipelineP_good (o : Oracle) (input : FileId) (dur : ℚ) :
    EventsOK (fun e =>
      (e.step = "splitting" ∨ e.step = "transcribe" ∨ e.step = "merge") ∧
        e.pct ≤ 100) (chunkPipelineP o input dur) ∧
    (chunkPipelineP o input dur).events.Pairwise ProgOrd := by
  have hsplit := splitP_good o input dur
  unfold chunkPipelineP
  simp only [phaseBind_eq]
  constructor
  · apply EventsOK.bind
    · exact hsplit.1.imp (fun e hp => ⟨Or.inl hp.1, hp.2⟩)
    intro chunks
    apply EventsOK.bind
    · exact ((transcribeLoop_good o chunks.length chunks 0 (by omega)).1).imp
        (fun e hp => ⟨Or.inr (Or.inl hp.1), hp.2⟩)
    intro ts
    apply EventsOK.bind
    · exact EventsOK_emit1 ⟨Or.inr (Or.inr rfl), by simp [ev]⟩
    intro _
    apply EventsOK.bind
    · exact EventsOK_emit1 ⟨Or.inr (Or.inr rfl), by simp [ev]⟩
    intro _
    exact EventsOK_pure _
  · apply pairwise_bind
    · exact hsplit.2
    · intro chunks _
      have hloop := transcribeLoop_good o chunks.length chunks 0 (by omega)
      apply pairwise_bind
      · exact hloop.2
      · intro ts _
        apply pairwise_bind
        · simp [emit1]
        · intro _ _
          apply pairwise_bind
          · simp [emit1]
          · intro _ _
            simp [phasePure_eq]
          · intro _ _ e he e' he'
            simp [phasePure_eq] at he'
        · intro _ _ e he e' he'
          simp [emit1, ev] at he
          subst he
          have h2 : e'.step = "merge" ∧ e'.pct = 100 ∨ False := by
            have : e' ∈ ((emit1 (ev "merge" 100 "Merge complete")).bind
                (fun _ => pure (String.mk (mergeTranscriptions ts)))).events := he'
            simp [emit1, PhaseOut.bind, phasePure_eq, ev] at this
            rw [this]
            exact Or.inl ⟨rfl, rfl⟩
          rcases h2 with ⟨_, hp⟩ | hf
          · exact ProgOrd_of_le (by simp [ev, hp])
          · exact absurd hf (by simp)
      · intro ts _ e he e' he'
        have h1 := hloop.1 e he
        exact ProgOrd_of_transcribe h1.1
    · intro chunks _ e he e' he'
      have h1 := hsplit.1 e he
      have hco : EventsOK (fun x =>
          (x.step = "transcribe" ∨ x.step = "merge") ∧ x.pct ≤ 100)
          ((transcribeLoop o chunks.length chunks 0).bind fun ts =>
            (emit1 (ev "merge" 0 "Merging transcriptions...")).bind fun _ =>
              (emit1 (ev "merge" 100 "Merge complete")).bind fun _ =>
                pure (String.mk (mergeTranscriptions ts))) := by
        apply EventsOK.bind
        · exact ((transcribeLoop_good o chunks.length chunks 0 (by omega)).1).imp
            (fun x hp => ⟨Or.inl hp.1, hp.2⟩)
        intro ts
        apply EventsOK.bind
        · exact EventsOK_emit1 ⟨Or.inr rfl, by simp [ev]⟩
        intro _
        apply EventsOK.bind
        · exact EventsOK_emit1 ⟨Or.inr rfl, by simp [ev]⟩
        intro _
        exact EventsOK_pure _
      have h2 := hco e' he'
      apply ProgOrd_of_ne
      rw [h1.1]
      rcases h2.1 with h | h <;> rw [h] <;> decide

theorem EventsOK_ite {P : Event → Prop} {α : Type} (c : Prop) [Decidable c]
    {x y : PhaseOut α} (hx : EventsOK P x) (hy : EventsOK P y) :
    EventsOK P (if c then x else y) := by
  split
  · exact hx
  · exact hy

theorem pairwise_ite {R : Event → Event → Prop} {α : Type} (c : Prop)
    [Decidable c] {x y : PhaseOut α}
    (hx : x.events.Pairwise R) (hy : y.events.Pairwise R) :
    ((if c then x else y : PhaseOut α).events).Pairwise R := by
  split
  · exact hx
  · exact hy

theorem pairwise_no_events {R : Event → Event → Prop} {α : Type}
    {p : PhaseOut α} (h : p.events = []) : p.events.Pairwise R := by
  rw [h]
  exact List.Pairwise.nil

theorem delK_events {β : Type} (f : FileId) (k : β) :
    ((deleteFile f).bind (fun _ => pure k)).events = [] := rfl

theorem pureK_events {β : Type} (k : β) :
    ((pure () : PhaseOut Unit).bind (fun _ => pure k)).events = [] := rfl

/-- The tail of `processTranscription`'s small-file branches: delete the
compressed file when it is distinct from the input, then return. -/
theorem EventsOK_cleanupTail {P : Event → Prop} {β : Type} (c : Prop)
    [Decidable c] (f : FileId) (k : β) :
    EventsOK P (if c then (deleteFile f).bind (fun _ => pure k)
      else (pure () : PhaseOut Unit).bind (fun _ => pure k)) := by
  apply EventsOK_ite
  · intro e he
    rw [delK_events] at he
    simp at he
  · intro e he
    rw [pureK_events] at he
    simp at he

theorem pairwise_cleanupTail {R : Event → Event → Prop} {β : Type} (c : Prop)
    [Decidable c] (f : FileId) (k : β) :
    ((if c then (deleteFile f).bind (fun _ => pure k)
      else (pure () : PhaseOut Unit).bind (fun _ => pure k) :
        PhaseOut β).events).Pairwise R := by
  apply pairwise_ite
  · exact pairwise_no_events (delK_events f k)
  · exact pairwise_no_events (pureK_events k)

theorem processP_good (o : Oracle) (path : FileId) :
    EventsOK (fun e =>
      (e.step = "compress" ∨ e.step = "splitting" ∨ e.step = "transcribe" ∨
        e.step = "merge") ∧ e.pct ≤ 100) (processP o path) ∧
    (processP o path).events.Pairwise ProgOrd := by
  unfold processP
  by_cases hbig : MAX_FILE_SIZE_MB < o.fileSizeMB
  · rw [if_pos hbig]
    refine ⟨(chunkPipelineP_good o path o.duration).1.imp ?_,
      (chunkPipelineP_good o path o.duration).2⟩
    intro e hp
    exact ⟨Or.inr hp.1, hp.2⟩
  · rw [if_neg hbig]
    simp only [phaseBind_eq]
    have hcont : ∀ cp : FileId, EventsOK (fun e =>
        (e.step = "splitting" ∨ e.step = "transcribe" ∨ e.step = "merge") ∧
          e.pct ≤ 100)
        (if MAX_FILE_SIZE_MB <
            (if o.compressOk then o.compressedSizeMB else o.fileSizeMB) then
          (chunkPipelineP o cp
            (if o.compressOk then o.compressedDuration else o.duration)).bind
            fun merged =>
              if cp ≠ path then (deleteFile cp).bind (fun _ => pure merged)
              else (pure () : PhaseOut Unit).bind (fun _ => pure merged)
        else
          (transcribeWholeP o cp).bind fun t =>
            if cp ≠ path then (deleteFile cp).bind (fun _ => pure t)
            else (pure () : PhaseOut Unit).bind (fun _ => pure t)) := by
      intro cp
      apply EventsOK_ite
      · apply EventsOK.bind
        · exact (chunkPipelineP_good o cp _).1
        intro merged
        exact EventsOK_cleanupTail _ _ _
      · apply EventsOK.bind
        · exact (transcribeWholeP_good o cp).1.imp
            (fun e hp => ⟨Or.inr (Or.inl hp.1), hp.2⟩)
        intro t
        exact EventsOK_cleanupTail _ _ _
    constructor
    · apply EventsOK.bind
      · exact (compressP_events o path).imp (fun e hp => ⟨Or.inl hp.1, hp.2⟩)
      intro cp
      exact (hcont cp).imp (fun e hp => ⟨Or.inr hp.1, hp.2⟩)
    · apply pairwise_bind
      · exact compressP_pairwise o path
      · intro cp _
        apply pairwise_ite
        · apply pairwise_bind
          · exact (chunkPipelineP_good o cp _).2
          · intro merged _
            exact pairwise_cleanupTail _ _ _
          · intro merged _ e he e' he'
            revert he'
            apply (EventsOK_cleanupTail _ _ _ : EventsOK (fun x => ProgOrd e x) _)
        · apply pairwise_bind
          · exact (transcribeWholeP_good o cp).2
          · intro t _
            exact pairwise_cleanupTail _ _ _
          · intro t _ e he e' he'
            revert he'
            apply (EventsOK_cleanupTail _ _ _ : EventsOK (fun x => ProgOrd e x) _)
      · intro cp _ e he e' he'
        have h1 := (compressP_events o path) e he
        have h2 := (hcont cp) e' he'
        apply ProgOrd_of_ne
        rw [h1.1]
        rcases h2.1 with h | h | h <;> rw [h] <;> decide

theorem postP_good (o : Oracle) (path : FileId) :
    EventsOK (fun e =>
      (e.step = "compress" ∨ e.step = "splitting" ∨ e.step = "transcribe" ∨
        e.step = "merge" ∨ e.step = "summary") ∧ e.pct ≤ 100) (postP o path) ∧
    (postP o path).events.Pairwise ProgOrd := by
  unfold postP
  simp only [phaseBind_eq]
  constructor
  · apply EventsOK.bind
    · exact (processP_good o path).1.imp (fun e hp => ⟨by tauto, hp.2⟩)
    intro transcript
    apply EventsOK.bind
    · exact (summariseP_events o).imp (fun e hp =>
        ⟨Or.inr (Or.inr (Or.inr (Or.inr hp.1))), hp.2⟩)
    intro _
    apply EventsOK.bind
    · exact EventsOK_deleteFile path
    intro _
    exact EventsOK_pure _
  · apply pairwise_bind
    · exact (processP_good o path).2
    · intro transcript _
      apply pairwise_bind
      · exact summariseP_pairwise o
      · intro _ _
        apply pairwise_bind
        · simp [deleteFile]
        · intro _ _
          simp [phasePure_eq]
        · intro _ _ e he e' he'
          simp [deleteFile] at he
      · intro _ _ e he e' he'
        have h1 := (summariseP_events o) e he
        rcases List.mem_append.mp he' with h | h
        · simp [deleteFile] at h
        · simp [phasePure_eq] at h
    · intro transcript _ e he e' he'
      have h1 := (processP_good o path).1 e he
      have hco : EventsOK (fun x => x.step = "summary" ∧ x.pct ≤ 100)
          ((summariseP o).bind fun _ =>
            (deleteFile path).bind fun _ => pure transcript) := by
        apply EventsOK.bind
        · exact summariseP_events o
        intro _
        apply EventsOK.bind
        · exact EventsOK_deleteFile path
        intro _
        exact EventsOK_pure _
      have h2 := hco e' he'
      apply ProgOrd_of_ne
      rw [h2.1]
      rcases h1.1 with h | h | h | h <;> rw [h] <;> decide

/-- What the transport guarantees about axios download-progress events:
`loaded ≤ total`, `loaded` never decreases across events, and `total`
(the declared content length) is the same in every event. -/
def DownloadHyp (o : Oracle) : Prop :=
  (∀ p ∈ o.downloadProgress, p.1 ≤ p.2) ∧
  o.downloadProgress.Pairwise (fun p q => p.1 ≤ q.1) ∧
  (∀ p ∈ o.downloadProgress, ∀ q ∈ o.downloadProgress, p.2 = q.2)

theorem dlProgressEvents_ok (l : List (ℕ × ℕ)) (h1 : ∀ p ∈ l, p.1 ≤ p.2) :
    ∀ e ∈ dlProgressEvents l, e.step = "download" ∧ e.pct ≤ 100 := by
  intro e he
  unfold dlProgressEvents at he
  rcases List.mem_filterMap.mp he with ⟨p, hp, hpe⟩
  by_cases hz : p.2 = 0
  · rw [if_pos hz] at hpe
    simp at hpe
  · rw [if_neg hz] at hpe
    simp only [Option.some.injEq] at hpe
    subst hpe
    refine ⟨rfl, ?_⟩
    exact jsRound_le_100 hz (by have := h1 p hp; omega)

theorem dlProgressEvents_pairwise (l : List (ℕ × ℕ))
    (h2 : l.Pairwise (fun p q => p.1 ≤ q.1))
    (h3 : ∀ p ∈ l, ∀ q ∈ l, p.2 = q.2) :
    (dlProgressEvents l).Pairwise ProgOrd := by
  unfold dlProgressEvents
  have hco : l.Pairwise (fun p q : ℕ × ℕ => p.1 ≤ q.1 ∧ p.2 = q.2) :=
    h2.and (List.pairwise_of_forall_mem_list h3)
  refine List.Pairwise.filterMap _ ?_ hco
  intro p q hpq b hb b' hb'
  by_cases hzp : p.2 = 0
  · rw [if_pos hzp] at hb
    simp at hb
  by_cases hzq : q.2 = 0
  · rw [if_pos hzq] at hb'
    simp at hb'
  rw [if_neg hzp] at hb
  rw [if_neg hzq] at hb'
  simp only [Option.mem_def, Option.some.injEq] at hb hb'
  subst hb
  subst hb'
  apply ProgOrd_of_le
  show jsRound (p.1 * 100) p.2 ≤ jsRound (q.1 * 100) q.2
  rw [hpq.2]
  exact jsRound_mono (by have := hpq.1; omega)

theorem dlP_events (o : Oracle)
    (h1 : ∀ p ∈ o.downloadProgress, p.1 ≤ p.2) :
    EventsOK (fun e => e.step = "download" ∧ e.pct ≤ 100) (dlP o) := by
  unfold dlP
  rcases o.downloadRequest with m | _
  · intro e he
    simp [ev] at he
    subst he
    exact ⟨rfl, by decide⟩
  · rcases o.downloadWrite with m | _
    · intro e he
      rcases List.mem_cons.mp he with rfl | h
      · exact ⟨rfl, by decide⟩
      · exact dlProgressEvents_ok _ h1 e h
    · intro e he
      rcases List.mem_append.mp he with h | h
      · rcases List.mem_cons.mp h with rfl | h
        · exact ⟨rfl, by decide⟩
        · exact dlProgressEvents_ok _ h1 e h
      · simp [ev] at h
        subst h
        exact ⟨rfl, by decide⟩

theorem dlP_pairwise (o : Oracle) (hdl : DownloadHyp o) :
    (dlP o).events.Pairwise ProgOrd := by
  obtain ⟨h1, h2, h3⟩ := hdl
  unfold dlP
  rcases o.downloadRequest with m | _
  · exact pairwise_one _
  · have hprog := dlProgressEvents_pairwise o.downloadProgress h2 h3
    rcases o.downloadWrite with m | _
    · apply List.Pairwise.cons
      · intro b hb
        exact ProgOrd_of_le (Nat.zero_le _)
      · exact hprog
    · rw [List.pairwise_append]
      refine ⟨?_, pairwise_one _, ?_⟩
      · apply List.Pairwise.cons
        · intro b hb
          exact ProgOrd_of_le (Nat.zero_le _)
        · exact hprog
      · intro a ha b hb
        simp [ev] at hb
        subst hb
        apply ProgOrd_of_le
        show a.pct ≤ 100
        rcases List.mem_cons.mp ha with rfl | h
        · decide
        · exact (dlProgressEvents_ok _ h1 a h).2

/-! ### Whole-trace facts -/

theorem dlProgressEvents_steps {l : List (ℕ × ℕ)} {e : Event}
    (h : e ∈ dlProgressEvents l) : e.step = "download" := by
  unfold dlProgressEvents at h
  rcases List.mem_filterMap.mp h with ⟨p, hp, hpe⟩
  by_cases hz : p.2 = 0
  · rw [if_pos hz] at hpe
    simp at hpe
  · rw [if_neg hz] at hpe
    simp only [Option.some.injEq] at hpe
    subst hpe
    rfl

theorem dl_events_steps {o : Oracle} {e : Event} (h : e ∈ (dlP o).events) :
    e.step = "download" := by
  unfold dlP at h
  rcases hreq : o.downloadRequest with m | u
  · simp only [hreq] at h
    simp [ev] at h
    subst h
    rfl
  · rcases hwr : o.downloadWrite with m | u2
    · simp only [hreq, hwr] at h
      rcases List.mem_cons.mp h with rfl | h'
      · rfl
      · exact dlProgressEvents_steps h'
    · simp only [hreq, hwr] at h
      rcases List.mem_cons.mp h with rfl | h'
      · rfl
      · rcases List.mem_append.mp h' with h'' | h''
        · exact dlProgressEvents_steps h''
        · simp [ev] at h''
          subst h''
          rfl

theorem phases_pairwise (o : Oracle) (path : FileId) (hdl : DownloadHyp o)
    (fin : Event) (hfin : fin.step = "error" ∨ fin.step = "complete") :
    ((preP o).events ++ (dlP o).events ++ (postP o path).events ++ [fin]).Pairwise
      ProgOrd := by
  rw [List.pairwise_append]
  refine ⟨?_, pairwise_one _, ?_⟩
  · rw [List.pairwise_append]
    refine ⟨?_, (postP_good o path).2, ?_⟩
    · rw [List.pairwise_append]
      refine ⟨preP_pairwise o, dlP_pairwise o hdl, ?_⟩
      intro a ha b hb
      have h1 := preP_events o a ha
      have h2 := dl_events_steps hb
      apply ProgOrd_of_ne
      rw [h2]
      rcases h1.1 with h' | h' | h' <;> rw [h'] <;> decide
    · intro a ha b hb
      have h2 := (postP_good o path).1 b hb
      apply ProgOrd_of_ne
      rcases List.mem_append.mp ha with h | h
      · have h1 := preP_events o a h
        rcases h1.1 with h' | h' | h' <;> rw [h'] <;>
          rcases h2.1 with h'' | h'' | h'' | h'' | h'' <;> rw [h''] <;> decide
      · rw [dl_events_steps h]
        rcases h2.1 with h'' | h'' | h'' | h'' | h'' <;> rw [h''] <;> decide
  · intro a ha b hb
    simp at hb
    subst hb
    apply ProgOrd_of_ne
    rcases List.mem_append.mp ha with h | h
    · rcases List.mem_append.mp h with h' | h'
      · have h1 := preP_events o a h'
        rcases hfin with hf | hf <;> rw [hf] <;>
          rcases h1.1 with h'' | h'' | h'' <;> rw [h''] <;> decide
      · rw [dl_events_steps h']
        rcases hfin with hf | hf <;> rw [hf] <;> decide
    · have h1 := (postP_good o path).1 a h
      rcases hfin with hf | hf <;> rw [hf] <;>
        rcases h1.1 with h'' | h'' | h'' | h'' | h'' <;> rw [h''] <;> decide

theorem runJob_pairwise (o : Oracle) (hdl : DownloadHyp o) :
    (runJob o).trace.Pairwise ProgOrd := by
  rcases hpre : (preP o).val with m | u
  · simp only [runJob, hpre]
    rw [List.pairwise_append]
    refine ⟨preP_pairwise o, pairwise_one _, ?_⟩
    intro a ha b hb
    simp [ev] at hb
    subst hb
    apply ProgOrd_of_ne
    show a.step ≠ "error"
    have h1 := preP_events o a ha
    rcases h1.1 with h | h | h <;> rw [h] <;> decide
  · rcases hdlv : (dlP o).val with m | path
    · simp only [runJob, hpre, hdlv]
      rw [List.pairwise_append]
      refine ⟨?_, pairwise_one _, ?_⟩
      · rw [List.pairwise_append]
        refine ⟨preP_pairwise o, dlP_pairwise o hdl, ?_⟩
        intro a ha b hb
        have h1 := preP_events o a ha
        have h2 := dl_events_steps hb
        apply ProgOrd_of_ne
        rw [h2]
        rcases h1.1 with h' | h' | h' <;> rw [h'] <;> decide
      · intro a ha b hb
        simp [ev] at hb
        subst hb
        apply ProgOrd_of_ne
        show a.step ≠ "error"
        rcases List.mem_append.mp ha with h | h
        · have h1 := preP_events o a h
          rcases h1.1 with h' | h' | h' <;> rw [h'] <;> decide
        · rw [dl_events_steps h]
          decide
    · rcases hpost : (postP o path).val with m | t
      · simp only [runJob, hpre, hdlv, hpost]
        exact phases_pairwise o path hdl _ (Or.inl rfl)
      · simp only [runJob, hpre, hdlv, hpost]
        exact phases_pairwise o path hdl _ (Or.inr rfl)

theorem runJob_pcts (o : Oracle)
    (h1 : ∀ p ∈ o.downloadProgress, p.1 ≤ p.2) :
    ∀ e ∈ (runJob o).trace, e.pct ≤ 100 := by
  intro e he
  rcases hpre : (preP o).val with m | u
  · simp only [runJob, hpre] at he
    rcases List.mem_append.mp he with h | h
    · exact (preP_events o e h).2
    · simp [ev] at h
      subst h
      show 100 ≤ 100
      decide
  · rcases hdlv : (dlP o).val with m | path
    · simp only [runJob, hpre, hdlv] at he
      rcases List.mem_append.mp he with h | h
      · rcases List.mem_append.mp h with h' | h'
        · exact (preP_events o e h').2
        · exact (dlP_events o h1 e h').2
      · simp [ev] at h
        subst h
        show 100 ≤ 100
        decide
    · rcases hpost : (postP o path).val with m | t <;>
        simp only [runJob, hpre, hdlv, hpost] at he <;>
        rcases List.mem_append.mp he with h | h
      · rcases List.mem_append.mp h with h' | h'
        · rcases List.mem_append.mp h' with h'' | h''
          · exact (preP_events o e h'').2
          · exact (dlP_events o h1 e h'').2
        · exact ((postP_good o path).1 e h').2
      · simp [ev] at h
        subst h
        show 100 ≤ 100
        decide
      · rcases List.mem_append.mp h with h' | h'
        · rcases List.mem_append.mp h' with h'' | h''
          · exact (preP_events o e h'').2
          · exact (dlP_events o h1 e h'').2
        · exact ((postP_good o path).1 e h').2
      · simp [ev] at h
        subst h
        show 100 ≤ 100
        decide

theorem runJob_cases_steps (o : Oracle) (path : FileId) :
    ∀ e ∈ (preP o).events ++ (dlP o).events ++ (postP o path).events,
      e.step ≠ "error" ∧ e.step ≠ "complete" := by
  intro e he
  rcases List.mem_append.mp he with h | h
  · rcases List.mem_append.mp h with h' | h'
    · have hp := preP_events o e h'
      rcases hp.1 with h'' | h'' | h'' <;> rw [h''] <;> exact ⟨by decide, by decide⟩
    · rw [dl_events_steps h']
      exact ⟨by decide, by decide⟩
  · have hp := (postP_good o path).1 e h
    rcases hp.1 with h'' | h'' | h'' | h'' | h'' <;> rw [h''] <;>
      exact ⟨by decide, by decide⟩

/-- Every run terminates in exactly one of two ways: an `error` event at
100 (result never stored) or the `complete` event at 100 (result
stored); everything before the final event belongs to an ordinary
pipeline step, and the `complete` marker of the store is always set at
the end. -/
theorem runJob_cases (o : Oracle) :
    ∃ A, (∀ e ∈ A, e.step ≠ "error" ∧ e.step ≠ "complete") ∧
      (runJob o).complete = true ∧
      ((∃ m, (runJob o).trace = A ++ [ev "error" 100 m] ∧
          (runJob o).result = false) ∨
        ((runJob o).trace = A ++ [ev "complete" 100 "Transcription complete!"] ∧
          (runJob o).result = true)) := by
  rcases hpre : (preP o).val with m | u
  · refine ⟨(preP o).events, ?_, ?_, Or.inl ⟨m, ?_, ?_⟩⟩
    · intro e he
      have h := preP_events o e he
      rcases h.1 with h' | h' | h' <;> rw [h'] <;> exact ⟨by decide, by decide⟩
    · simp [runJob, hpre]
    · simp [runJob, hpre]
    · simp [runJob, hpre]
  · rcases hdlv : (dlP o).val with m | path
    · refine ⟨(preP o).events ++ (dlP o).events, ?_, ?_, Or.inl ⟨m, ?_, ?_⟩⟩
      · intro e he
        rcases List.mem_append.mp he with h | h
        · have h' := preP_events o e h
          rcases h'.1 with h'' | h'' | h'' <;> rw [h''] <;>
            exact ⟨by decide, by decide⟩
        · rw [dl_events_steps h]
          exact ⟨by decide, by decide⟩
      · simp [runJob, hpre, hdlv]
      · simp [runJob, hpre, hdlv]
      · simp [runJob, hpre, hdlv]
    · rcases hpost : (postP o path).val with m | t
      · refine ⟨(preP o).events ++ (dlP o).events ++ (postP o path).events,
          runJob_cases_steps o path, ?_, Or.inl ⟨m, ?_, ?_⟩⟩
        · simp [runJob, hpre, hdlv, hpost]
        · simp [runJob, hpre, hdlv, hpost]
        · simp [runJob, hpre, hdlv, hpost]
      · refine ⟨(preP o).events ++ (dlP o).events ++ (postP o path).events,
          runJob_cases_steps o path, ?_, Or.inr ⟨?_, ?_⟩⟩
        · simp [runJob, hpre, hdlv, hpost]
        · simp [runJob, hpre, hdlv, hpost]
        · simp [runJob, hpre, hdlv, hpost]

/-! ### File bookkeeping facts -/

theorem compressed_ne (f : FileId) : FileId.compressed f ≠ f := by
  induction f with
  | original =>
    intro h
    exact FileId.noConfusion h
  | compressed g ih =>
    intro h
    injection h with h'
    exact ih h'
  | chunk g i =>
    intro h
    exact FileId.noConfusion h

theorem mem_remainingFiles {c d : List FileId} {f : FileId} :
    f ∈ remainingFiles c d ↔ f ∈ c ∧ f ∉ d := by
  unfold remainingFiles
  simp [List.mem_filter]

theorem remainingFiles_eq_nil {c d : List FileId} (h : ∀ f ∈ c, f ∈ d) :
    remainingFiles c d = [] := by
  unfold remainingFiles
  rw [List.filter_eq_nil_iff]
  intro a ha
  simp [h a ha]

theorem preP_files (o : Oracle) :
    (preP o).created = [] ∧ (preP o).deleted = [] ∧ (preP o).transcribed = [] := by
  unfold preP metaP rssP parseP
  rcases o.spotifyData with m | _ | sd <;>
    rcases o.providedRssUrl with _ | u <;>
    rcases o.rssFound with _ | v <;>
    rcases o.feedParse with m2 | _ <;>
    rcases o.audioUrl with _ | w <;>
    simp [phaseBind_eq, PhaseOut.bind, emit1, emitAll]

theorem dlP_spec (o : Oracle) :
    (dlP o).deleted = [] ∧ (dlP o).transcribed = [] ∧
    (∀ path, (dlP o).val = .ok path →
      path = FileId.original ∧ (dlP o).created = [FileId.original]) ∧
    (o.downloadWrite = .ok () →
      (dlP o).created = [] ∨ (dlP o).val = .ok FileId.original) := by
  unfold dlP
  rcases o.downloadRequest with m | u <;> rcases hw : o.downloadWrite with m2 | u2 <;>
    simp [hw]

theorem summariseP_files (o : Oracle) :
    (summariseP o).created = [] ∧ (summariseP o).deleted = [] ∧
      (summariseP o).transcribed = [] := by
  unfold summariseP
  rcases o.summary <;> simp [emit1, emitAll]

theorem splitLoop_ok_spec (o : Oracle) (input : FileId) (n : ℕ) :
    ∀ (fuel i : ℕ) (cs : List FileId),
      (splitLoop o input n i fuel).val = .ok cs →
      (splitLoop o input n i fuel).created = cs ∧
      (splitLoop o input n i fuel).deleted = [] ∧
      (splitLoop o input n i fuel).transcribed = [] := by
  intro fuel
  induction fuel with
  | zero =>
    intro i cs h
    simp [splitLoop, phasePure_eq] at h ⊢
    simp [← h]
  | succ fuel ih =>
    intro i cs h
    rcases hsc : o.splitChunk i with m | u
    · simp [splitLoop, hsc, throwMsg] at h
    · rcases hrec : (splitLoop o input n (i + 1) fuel).val with m2 | rest
      · simp only [splitLoop, hsc, phaseBind_eq] at h ⊢
        simp only [PhaseOut.bind, createFile, emit1, phasePure_eq, hrec] at h
        simp at h
      · have hih := ih (i + 1) rest hrec
        simp only [splitLoop, hsc, phaseBind_eq] at h ⊢
        simp only [PhaseOut.bind, createFile, emit1, phasePure_eq, hrec] at h ⊢
        simp at h
        simp [← h, hih.1, hih.2.1, hih.2.2]

theorem splitP_ok_spec (o : Oracle) (input : FileId) (dur : ℚ)
    (cs : List FileId) (h : (splitP o input dur).val = .ok cs) :
    (splitP o input dur).created = cs ∧ (splitP o input dur).deleted = [] ∧
      (splitP o input dur).transcribed = [] := by
  unfold splitP at h ⊢
  rcases hloop : (splitLoop o input (numChunks dur) 0 (numChunks dur)).val
    with m | rest
  · simp only [phaseBind_eq, PhaseOut.bind, emit1, phasePure_eq, hloop] at h
    simp at h
  · have hspec := splitLoop_ok_spec o input (numChunks dur) (numChunks dur) 0
      rest hloop
    simp only [phaseBind_eq, PhaseOut.bind, emit1, phasePure_eq, hloop] at h ⊢
    simp at h
    simp [← h, hspec.1, hspec.2.1, hspec.2.2]

theorem transcribeChunkP_files (o : Oracle) (c : FileId) (i n : ℕ) :
    (transcribeChunkP o c i n).created = [] ∧
      (transcribeChunkP o c i n).deleted = [] := by
  unfold transcribeChunkP
  rcases o.transcribeChunk i with m | t <;>
    simp [phaseBind_eq, PhaseOut.bind, emit1, recordTranscribed, liftExc,
      phasePure_eq]

theorem transcribeLoop_ok_spec (o : Oracle) (n : ℕ) :
    ∀ (l : List FileId) (i : ℕ) (ts : List SegmentTranscript),
      (transcribeLoop o n l i).val = .ok ts →
      (transcribeLoop o n l i).deleted = l ∧
      (transcribeLoop o n l i).created = [] := by
  intro l
  induction l with
  | nil =>
    intro i ts h
    simp [transcribeLoop, phasePure_eq]
  | cons c rest ih =>
    intro i ts h
    rcases hch : (transcribeChunkP o c i n).val with m | t
    · simp only [transcribeLoop, phaseBind_eq, PhaseOut.bind, hch] at h
      simp at h
    · rcases hrec : (transcribeLoop o n rest (i + 1)).val with m2 | ts2
      · simp only [transcribeLoop, phaseBind_eq] at h
        simp only [PhaseOut.bind, hch, deleteFile, phasePure_eq, hrec] at h
        simp at h
      · have hih := ih (i + 1) ts2 hrec
        have hfiles := transcribeChunkP_files o c i n
        simp only [transcribeLoop, phaseBind_eq] at h ⊢
        simp only [PhaseOut.bind, hch, deleteFile, phasePure_eq, hrec] at h ⊢
        simp [hfiles.1, hfiles.2, hih.1, hih.2]

theorem chunkPipelineP_ok_spec (o : Oracle) (input : FileId) (dur : ℚ)
    (t : String) (h : (chunkPipelineP o input dur).val = .ok t) :
    ∀ f ∈ (chunkPipelineP o input dur).created,
      f ∈ (chunkPipelineP o input dur).deleted := by
  unfold chunkPipelineP at h ⊢
  rcases hsplit : (splitP o input dur).val with m | cs
  · simp only [phaseBind_eq, PhaseOut.bind, hsplit] at h
    simp at h
  · have hsspec := splitP_ok_spec o input dur cs hsplit
    rcases hloop : (transcribeLoop o cs.length cs 0).val with m2 | ts
    · simp only [phaseBind_eq, PhaseOut.bind, hsplit, hloop] at h
      simp at h
    · have hlspec := transcribeLoop_ok_spec o cs.length cs 0 ts hloop
      simp only [phaseBind_eq, PhaseOut.bind, hsplit, hloop, emit1,
        phasePure_eq] at h ⊢
      simp [hsspec.1, hsspec.2.1, hlspec.1, hlspec.2]

theorem compressP_spec (o : Oracle) (input : FileId) :
    (compressP o input).deleted = [] ∧ (compressP o input).transcribed = [] ∧
    ∀ cp, (compressP o input).val = .ok cp →
      ((o.compressOk = true ∧ cp = FileId.compressed input ∧
          (compressP o input).created = [FileId.compressed input]) ∨
        (o.compressOk = false ∧ cp = input ∧ (compressP o input).created = [])) := by
  unfold compressP
  rcases hc : o.compressOk <;> simp [hc]

theorem tail_created {β : Type} (cp path : FileId) (r : β) :
    (if cp ≠ path then (deleteFile cp).bind (fun _ => pure r)
      else (pure () : PhaseOut Unit).bind (fun _ => pure r) :
        PhaseOut β).created = [] := by
  split
  · rfl
  · rfl

theorem tail_deleted_of_ne {β : Type} (cp path : FileId) (r : β)
    (hne : cp ≠ path) :
    (if cp ≠ path then (deleteFile cp).bind (fun _ => pure r)
      else (pure () : PhaseOut Unit).bind (fun _ => pure r) :
        PhaseOut β).deleted = [cp] := by
  rw [if_pos hne]
  rfl

theorem transcribeWholeP_files (o : Oracle) (c : FileId) :
    (transcribeWholeP o c).created = [] ∧ (transcribeWholeP o c).deleted = [] := by
  unfold transcribeWholeP
  rcases o.transcribeWhole with m | t <;>
    simp [phaseBind_eq, PhaseOut.bind, emit1, recordTranscribed, liftExc,
      phasePure_eq]

theorem bindTail_spec (cp path : FileId) (m : PhaseOut String)
    (hm : ∀ t2, m.val = .ok t2 → ∀ f ∈ m.created, f ∈ m.deleted) (t : String)
    (h : (m.bind fun r => if cp ≠ path then (deleteFile cp).bind (fun _ => pure r)
        else (pure () : PhaseOut Unit).bind (fun _ => pure r)).val = .ok t) :
    (∀ f ∈ (m.bind fun r =>
        if cp ≠ path then (deleteFile cp).bind (fun _ => pure r)
        else (pure () : PhaseOut Unit).bind (fun _ => pure r)).created,
      f ∈ (m.bind fun r =>
        if cp ≠ path then (deleteFile cp).bind (fun _ => pure r)
        else (pure () : PhaseOut Unit).bind (fun _ => pure r)).deleted) ∧
    (cp ≠ path → cp ∈ (m.bind fun r =>
        if cp ≠ path then (deleteFile cp).bind (fun _ => pure r)
        else (pure () : PhaseOut Unit).bind (fun _ => pure r)).deleted) := by
  rcases hv : m.val with m2 | t2
  · rw [PhaseOut.bind_err hv] at h
    simp at h
  · rw [PhaseOut.bind_ok hv] at h ⊢
    constructor
    · intro f hf
      simp only [tail_created, List.append_nil] at hf
      apply List.mem_append.mpr
      left
      exact hm t2 hv f hf
    · intro hne
      apply List.mem_append.mpr
      right
      rw [tail_deleted_of_ne cp path t2 hne]
      simp

theorem processP_ok_spec (o : Oracle) (path : FileId) (t : String)
    (h : (processP o path).val = .ok t) :
    ∀ f ∈ (processP o path).created, f ∈ (processP o path).deleted := by
  unfold processP at h ⊢
  by_cases hbig : MAX_FILE_SIZE_MB < o.fileSizeMB
  · rw [if_pos hbig] at h ⊢
    exact chunkPipelineP_ok_spec o path o.duration t h
  · rw [if_neg hbig] at h ⊢
    rcases hok : o.compressOk with _ | _
    · simp only [compressP, hok, Bool.false_eq_true, if_false, phaseBind_eq,
        PhaseOut.bind] at h ⊢
      rw [if_neg hbig] at h ⊢
      intro f hf
      simp only [List.nil_append] at hf ⊢
      have hbt := bindTail_spec path path _ (fun t2 ht2 => by
          rw [(transcribeWholeP_files o path).1]
          intro g hg
          simp at hg) t h
      exact hbt.1 f hf
    · simp only [compressP, hok, eq_self_iff_true, if_true, phaseBind_eq,
        PhaseOut.bind] at h ⊢
      by_cases hsz : MAX_FILE_SIZE_MB < o.compressedSizeMB
      · rw [if_pos hsz] at h ⊢
        intro f hf
        have hbt := bindTail_spec (FileId.compressed path) path _
          (fun t2 ht2 =>
            chunkPipelineP_ok_spec o (FileId.compressed path)
              o.compressedDuration t2 ht2) t h
        rcases List.mem_append.mp hf with hf1 | hf2
        · simp at hf1
          subst hf1
          apply List.mem_append.mpr
          right
          exact hbt.2 (compressed_ne path)
        · apply List.mem_append.mpr
          right
          exact hbt.1 f hf2
      · rw [if_neg hsz] at h ⊢
        intro f hf
        have hbt := bindTail_spec (FileId.compressed path) path _
          (fun t2 ht2 => by
            rw [(transcribeWholeP_files o (FileId.compressed path)).1]
            intro g hg
            simp at hg) t h
        rcases List.mem_append.mp hf with hf1 | hf2
        · simp at hf1
          subst hf1
          apply List.mem_append.mpr
          right
          exact hbt.2 (compressed_ne path)
        · apply List.mem_append.mpr
          right
          exact hbt.1 f hf2

theorem summariseP_val (o : Oracle) : (summariseP o).val = .ok () := by
  unfold summariseP
  rcases o.summary <;> rfl

theorem postP_ok_spec (o : Oracle) (path : FileId) (t : String)
    (h : (postP o path).val = .ok t) :
    (∀ f ∈ (postP o path).created, f ∈ (postP o path).deleted) ∧
      path ∈ (postP o path).deleted := by
  unfold postP at h ⊢
  rcases hp : (processP o path).val with m | tp
  · simp only [phaseBind_eq, PhaseOut.bind, hp] at h
    simp at h
  · have hps := processP_ok_spec o path tp hp
    have hsf := summariseP_files o
    simp only [phaseBind_eq, PhaseOut.bind, hp, summariseP_val, deleteFile,
      phasePure_eq] at h ⊢
    constructor
    · intro f hf
      simp only [hsf.1, hsf.2.1] at hf ⊢
      simp at hf
      simp [hps f hf]
    · simp [hsf.2.1]

/-! ### Concrete oracles used by counterexamples and witnesses -/

/-- A job whose external calls all succeed: a small (10 MB) file that
compresses to 8 MB and is transcribed in one call. -/
def oAllOk : Oracle :=
  { spotifyData := .ok (some ⟨"Episode", "Podcast"⟩)
    providedRssUrl := none
    rssFound := some "https://feed.example/rss"
    feedParse := .ok ()
    audioUrl := some "https://cdn.example/audio.mp3"
    downloadRequest := .ok ()
    downloadProgress := []
    downloadWrite := .ok ()
    fileSizeMB := 10
    duration := 1200
    compressOk := true
    compressedSizeMB := 8
    compressedDuration := 1200
    splitChunk := fun _ => .ok ()
    transcribeChunk := fun _ => .ok "chunk text"
    transcribeWhole := .ok "whole text"
    summary := .noKey }

/-- Like `oAllOk` but the ffmpeg compression exec fails. -/
def oCompressFail : Oracle := { oAllOk with compressOk := false }

/-- Like `oAllOk` but `getData` returns null. -/
def oMetaNull : Oracle := { oAllOk with spotifyData := .ok none }

/-- A 30 MB, 1200-second file: two chunks, everything succeeds. -/
def oTwoChunks : Oracle := { oAllOk with fileSizeMB := 30 }

/-- A 30 MB, 1200-second file whose first chunk transcription is
rejected by the provider. -/
def oChunkFail : Oracle :=
  { oAllOk with
    fileSizeMB := 30
    transcribeChunk := fun i =>
      if i = 0 then .error "Rate limit reached" else .ok "chunk text" }

/-! ### Claim C4 — failure halts the pipeline -/

theorem last_of_unique {α : Type} (p : α → Prop) :
    ∀ (pre A : List α) (b e : α) (post : List α),
      (∀ x ∈ A, ¬ p x) → pre ++ e :: post = A ++ [b] → p e →
      post = [] ∧ e = b := by
  intro pre
  induction pre with
  | nil =>
    intro A b e post hA heq hpe
    cases A with
    | nil =>
      simp at heq
      exact ⟨heq.2, heq.1⟩
    | cons a A' =>
      simp at heq
      exact absurd (heq.1 ▸ hpe) (hA a (by simp))
  | cons x pre' ih =>
    intro A b e post hA heq hpe
    cases A with
    | nil =>
      simp at heq
    | cons a A' =>
      simp at heq
      exact ih A' b e post (fun y hy => hA y (by simp [hy])) heq.2 hpe

/-- C4 counterexample: the single-pass compression step fails
(`oCompressFail`), yet the job publishes no `error` event, continues
with every later step, publishes `complete` at 100 and stores a result —
contradicting the claim for the compression step. -/
theorem C4_counterexample :
    oCompressFail.compressOk = false ∧
    (∀ e ∈ (runJob oCompressFail).trace, e.step ≠ "error") ∧
    (ev "complete" 100 "Transcription complete!") ∈ (runJob oCompressFail).trace ∧
    (runJob oCompressFail).result = true := by
  refine ⟨rfl, ?_, ?_, rfl⟩
  · decide
  · decide

/-- C4 (amended): for every step whose failure is fatal — that is, every
step except the locally recovered single-pass compression and the
non-fatal summarisation — failure publishes `error` at 100 with the
failure message as the final event of the trace: nothing is published
after it (so no further steps run and no step other than `error` reaches
100 afterwards), the snapshot shows `complete: true`, and no result is
stored. -/
theorem C4_error_halts (o : Oracle) (pre : List Event) (e : Event)
    (post : List Event) (htr : (runJob o).trace = pre ++ e :: post)
    (he : e.step = "error") :
    post = [] ∧ e.pct = 100 ∧ (runJob o).complete = true ∧
      (runJob o).result = false := by
  obtain ⟨A, hA, hcomp, hcase⟩ := runJob_cases o
  rcases hcase with ⟨m, htr2, hres⟩ | ⟨htr2, hres⟩
  · rw [htr2] at htr
    obtain ⟨hpost, heb⟩ := last_of_unique (fun x => x.step = "error") pre A
      (ev "error" 100 m) e post (fun x hx => (hA x hx).1) htr.symm he
    refine ⟨hpost, ?_, hcomp, hres⟩
    rw [heb]
    rfl
  · rw [htr2] at htr
    have hmem : e ∈ A ++ [ev "complete" 100 "Transcription complete!"] := by
      rw [htr]
      exact List.mem_append.mpr (Or.inr (List.mem_cons_self e post))
    rcases List.mem_append.mp hmem with h | h
    · exact absurd he (hA e h).1
    · simp at h
      rw [h] at he
      exact absurd he (by decide)

/-- C4 witness: the amended statement at `oMetaNull` (metadata fetch
returns null): the error event is final, at 100%, `complete` is set and
no result exists. -/
theorem C4_error_halts_witness :
    ((runJob oMetaNull).trace =
      [ev "metadata" 0 "Fetching Spotify metadata..."] ++
        ev "error" 100 "Could not fetch episode data from Spotify" :: []) ∧
    (ev "error" 100 "Could not fetch episode data from Spotify").step = "error" ∧
    (([] : List Event) = [] ∧
      (ev "error" 100 "Could not fetch episode data from Spotify").pct = 100 ∧
      (runJob oMetaNull).complete = true ∧ (runJob oMetaNull).result = false) :=
  ⟨by decide, rfl,
    C4_error_halts oMetaNull
      [ev "metadata" 0 "Fetching Spotify metadata..."]
      (ev "error" 100 "Could not fetch episode data from Spotify") []
      (by decide) rfl⟩

/-! ### Claim C5 — scratch-file cleanup -/

/-- C5 counterexample: a two-chunk job whose first Groq call fails
reaches the terminal Failed state with both chunk files still in
storage — the chunk is only deleted *after* a successful transcription
call, and the later chunk is never consumed.  (Only the original
download is removed by the catch block.) -/
theorem C5_counterexample :
    (runJob oChunkFail).complete = true ∧
    (runJob oChunkFail).files =
      [FileId.chunk FileId.original 0, FileId.chunk FileId.original 1] := by
  simp only [runJob, show (preP oChunkFail).val = Except.ok () from rfl,
    show (dlP oChunkFail).val = Except.ok FileId.original from rfl,
    postP, processP, chunkPipelineP, splitP, phaseBind_eq]
  rw [show numChunks oChunkFail.duration = 2 from numChunks_1200]
  exact ⟨rfl, rfl⟩

/-- C5 (amended): on a *successful* run no scratch file survives (every
chunk is deleted right after its successful transcription, the
compressed file after its use, the original download at the end); and
whenever the download stream completed, the original download is gone at
the terminal state, success or failure.  But segment files are deleted
only after *successful* transcription calls — a failing call leaks its
own and all later segment files (see the counterexample) — and a failure
of the download stream itself leaks the partial download, because
`tempFilePath` is assigned only after the promise resolves. -/
theorem C5_cleanup (o : Oracle) :
    ((runJob o).result = true → (runJob o).files = []) ∧
    (o.downloadWrite = .ok () → FileId.original ∉ (runJob o).files) := by
  constructor
  · intro hres
    rcases hpre : (preP o).val with m | u
    · simp [runJob, hpre] at hres
    · rcases hdlv : (dlP o).val with m | path
      · simp [runJob, hpre, hdlv] at hres
      · rcases hpost : (postP o path).val with m | t
        · simp [runJob, hpre, hdlv, hpost] at hres
        · simp only [runJob, hpre, hdlv, hpost]
          apply remainingFiles_eq_nil
          intro f hf
          have hpf := preP_files o
          have hdf := dlP_spec o
          have hposts := postP_ok_spec o path t hpost
          rcases List.mem_append.mp hf with h1 | h2
          · rcases List.mem_append.mp h1 with h3 | h4
            · rw [hpf.1] at h3
              simp at h3
            · obtain ⟨hpath, hcr⟩ := hdf.2.2.1 path hdlv
              rw [hcr] at h4
              simp at h4
              subst h4
              apply List.mem_append.mpr
              right
              rw [← hpath]
              exact hposts.2
          · apply List.mem_append.mpr
            right
            exact hposts.1 f h2
  · intro hw hmem
    rcases hpre : (preP o).val with m | u
    · simp only [runJob, hpre] at hmem
      rw [mem_remainingFiles] at hmem
      have h1 := hmem.1
      rw [(preP_files o).1] at h1
      simp at h1
    · rcases hdlv : (dlP o).val with m | path
      · simp only [runJob, hpre, hdlv] at hmem
        rw [mem_remainingFiles] at hmem
        rcases List.mem_append.mp hmem.1 with h3 | h4
        · rw [(preP_files o).1] at h3
          simp at h3
        · rcases (dlP_spec o).2.2.2 hw with hcr | hval
          · rw [hcr] at h4
            simp at h4
          · rw [hdlv] at hval
            simp at hval
      · rcases hpost : (postP o path).val with m | t
        · simp only [runJob, hpre, hdlv, hpost] at hmem
          rw [mem_remainingFiles] at hmem
          obtain ⟨hpath, _⟩ := (dlP_spec o).2.2.1 path hdlv
          apply hmem.2
          apply List.mem_append.mpr
          right
          simp [hpath]
        · simp only [runJob, hpre, hdlv, hpost] at hmem
          rw [mem_remainingFiles] at hmem
          obtain ⟨hpath, _⟩ := (dlP_spec o).2.2.1 path hdlv
          have hposts := postP_ok_spec o path t hpost
          apply hmem.2
          apply List.mem_append.mpr
          right
          rw [← hpath]
          exact hposts.2

/-- C5 witness: the fully successful small-file job leaves no file, and
the original download is gone. -/
theorem C5_cleanup_witness :
    ((runJob oAllOk).result = true ∧ (runJob oAllOk).files = []) ∧
      (oAllOk.downloadWrite = .ok () ∧
        FileId.original ∉ (runJob oAllOk).files) :=
  ⟨⟨by decide, (C5_cleanup oAllOk).1 (by decide)⟩,
    ⟨rfl, (C5_cleanup oAllOk).2 rfl⟩⟩

/-! ### Claim C6 — compression failure is recovered locally -/

/-- C6: when the single-pass compression fails on a file under the size
ceiling, the pipeline falls back to the original uncompressed file
(`compressAudio` returns its input path): the job completes with a
stored result, no `error` step is ever published, and the one file sent
to the transcription provider is the original download. -/
theorem C6_compress_fallback (o : Oracle)
    (hc : o.compressOk = false)
    (hsize : ¬ MAX_FILE_SIZE_MB < o.fileSizeMB)
    (hpre : (preP o).val = .ok ())
    (hdlv : (dlP o).val = .ok FileId.original)
    (ht : ∃ t, o.transcribeWhole = .ok t) :
    (runJob o).result = true ∧
    (runJob o).transcribed = [FileId.original] ∧
    ∀ e ∈ (runJob o).trace, e.step ≠ "error" := by
  obtain ⟨t, ht⟩ := ht
  have hwhole : transcribeWholeP o FileId.original =
      ⟨[ev "transcribe" 0 "Transcribing...",
        ev "transcribe" 100 "Transcription complete"], [], [],
        [FileId.original], .ok t⟩ := by
    unfold transcribeWholeP
    simp [phaseBind_eq, PhaseOut.bind, ht, emit1, recordTranscribed, liftExc,
      phasePure_eq]
  have hproc : processP o FileId.original =
      ⟨[ev "compress" 0 "Compressing audio...",
        ev "transcribe" 0 "Transcribing...",
        ev "transcribe" 100 "Transcription complete"], [], [],
        [FileId.original], .ok t⟩ := by
    unfold processP
    rw [if_neg hsize]
    simp only [phaseBind_eq, compressP, hc, Bool.false_eq_true, if_false,
      PhaseOut.bind]
    rw [if_neg hsize, hwhole]
    simp [PhaseOut.bind, phasePure_eq, deleteFile, emit1]
  have hpostval : (postP o FileId.original).val = .ok t := by
    unfold postP
    simp only [phaseBind_eq, PhaseOut.bind, hproc, summariseP_val, deleteFile,
      phasePure_eq]
  have hptr : (postP o FileId.original).transcribed = [FileId.original] := by
    unfold postP
    simp only [phaseBind_eq, PhaseOut.bind, hproc, summariseP_val, deleteFile,
      phasePure_eq, (summariseP_files o).2.2]
    simp
  refine ⟨?_, ?_, ?_⟩
  · simp [runJob, hpre, hdlv, hpostval]
  · simp only [runJob, hpre, hdlv, hpostval]
    rw [(preP_files o).2.2, (dlP_spec o).2.1, hptr]
    simp
  · intro e he
    obtain ⟨A, hA, _, hcase⟩ := runJob_cases o
    rcases hcase with ⟨m, htr2, hres⟩ | ⟨htr2, hres⟩
    · have : (runJob o).result = true := by simp [runJob, hpre, hdlv, hpostval]
      rw [this] at hres
      simp at hres
    · rw [htr2] at he
      rcases List.mem_append.mp he with h | h
      · exact (hA e h).1
      · simp at h
        rw [h]
        decide

/-- C6 witness: the compression-failure oracle satisfies every
hypothesis and the job completes on the original file. -/
theorem C6_compress_fallback_witness :
    (oCompressFail.compressOk = false ∧
      ¬ MAX_FILE_SIZE_MB < oCompressFail.fileSizeMB ∧
      (preP oCompressFail).val = .ok () ∧
      (dlP oCompressFail).val = .ok FileId.original) ∧
    (runJob oCompressFail).result = true ∧
    (runJob oCompressFail).transcribed = [FileId.original] :=
  have h := C6_compress_fallback oCompressFail rfl (by decide) rfl rfl
    ⟨"whole text", rfl⟩
  ⟨⟨rfl, by decide, rfl, rfl⟩, h.1, h.2.1⟩

/-! ### Claim C8 — progress percentage discipline -/

/-- C8 counterexample: in a two-chunk job the `transcribe` step is reset
to 0 before every chunk, so its published sequence is `0, 50, 0, 100` —
not monotone non-decreasing. -/
theorem C8_counterexample :
    stepPcts (runJob oTwoChunks).trace "transcribe" = [0, 50, 0, 100] ∧
    monoNondec (stepPcts (runJob oTwoChunks).trace "transcribe") = false := by
  simp only [runJob, show (preP oTwoChunks).val = Except.ok () from rfl,
    show (dlP oTwoChunks).val = Except.ok FileId.original from rfl,
    postP, processP, chunkPipelineP, splitP, phaseBind_eq]
  rw [show numChunks oTwoChunks.duration = 2 from numChunks_1200]
  exact ⟨rfl, rfl⟩

/-- C8 (amended): under the transport guarantees on download progress
events, every published percentage lies in 0–100, and for every step
*except* `transcribe` the per-step sequence is monotone non-decreasing;
the `transcribe` step restarts from 0 at the beginning of each chunk. -/
theorem C8_progress (o : Oracle) (hdl : DownloadHyp o) :
    (∀ e ∈ (runJob o).trace, e.pct ≤ 100) ∧
    ∀ s : String, s ≠ "transcribe" →
      monoNondec (stepPcts (runJob o).trace s) = true :=
  ⟨runJob_pcts o hdl.1, fun s hs =>
    stepPcts_mono_of_pairwise _ s hs (runJob_pairwise o hdl)⟩

/-- C8 witness: the download-event hypotheses hold for the all-success
oracle (it has no download events) and e.g. the `download` step is
monotone. -/
theorem C8_progress_witness :
    DownloadHyp oAllOk ∧
      monoNondec (stepPcts (runJob oAllOk).trace "download") = true :=
  have hdl : DownloadHyp oAllOk :=
    ⟨by simp [oAllOk], List.Pairwise.nil, by simp [oAllOk]⟩
  ⟨hdl, (C8_progress oAllOk hdl).2 "download" (by decide)⟩

/-! ## Job-table eviction: `/api/result/:jobId` (server.js lines 746–765)

`progressStore.delete` appears exactly once in server.js: inside the
result endpoint, scheduled 60 000 ms after a fetch that found
`progress.result`.  No TTL or sweeper exists anywhere else. -/

/-- The observable content of one job's progress-store entry as read by
the result endpoint: whether `progress.result` is set (only successful
jobs), whether `progress.error` is set (the error step entry), and the
`complete` marker. -/
structure JobEntry where
  hasResult : Bool
  hasError : Bool
  complete : Bool
deriving DecidableEq, Repr

/-- The state of the job's slot in `progressStore`: still present, and
whether the 60-second deletion timeout of line 756 is pending. -/
structure SlotState where
  present : Bool
  evictionScheduled : Bool
deriving DecidableEq, Repr

/-- Stimuli on the slot: a `GET /api/result/:jobId` request, or the
passage of the 60-second timeout period. -/
inductive TableOp
  | fetch
  | tick
deriving DecidableEq, Repr

/-- The HTTP status the endpoint answers with (lines 750–764): 404 when
the entry is gone, 200 when a result exists, 500 when the error entry
exists, 202 otherwise. -/
def resultResponse (e : JobEntry) (present : Bool) : ℕ :=
  if !present then 404
  else if e.hasResult then 200
  else if e.hasError then 500
  else 202

/-- One step of the slot.  A fetch schedules the deletion *only* when
the entry is present and carries a result
(`setTimeout(() => progressStore.delete(jobId), 60000)`); a tick fires
any pending deletion.  Nothing else in server.js deletes from
`progressStore`. -/
def stepTable (e : JobEntry) (s : SlotState) : TableOp → SlotState
  | .fetch =>
    if s.present && e.hasResult then { s with evictionScheduled := true } else s
  | .tick =>
    if s.evictionScheduled then { present := false, evictionScheduled := false }
    else s

def runTable (e : JobEntry) (s : SlotState) : List TableOp → SlotState
  | [] => s
  | op :: ops => runTable e (stepTable e s op) ops

/-- Slot state right after the job's entry is created. -/
def initialSlot : SlotState := ⟨true, false⟩

/-- Some tick after the list position of some fetch. -/
def hasTick : List TableOp → Bool
  | [] => false
  | .tick :: _ => true
  | .fetch :: rest => hasTick rest

def fetchThenTick : List TableOp → Bool
  | [] => false
  | .fetch :: rest => hasTick rest
  | .tick :: rest => fetchThenTick rest

theorem runTable_absorb (e : JobEntry) (ops : List TableOp) :
    runTable e ⟨false, false⟩ ops = ⟨false, false⟩ := by
  induction ops with
  | nil => rfl
  | cons op rest ih =>
    cases op <;> simp [runTable, stepTable, ih]

theorem runTable_no_result (e : JobEntry) (h : e.hasResult = false)
    (ops : List TableOp) : runTable e initialSlot ops = initialSlot := by
  induction ops with
  | nil => rfl
  | cons op rest ih =>
    cases op <;> simp [runTable, stepTable, h, initialSlot] <;>
      simpa [initialSlot] using ih

theorem runTable_scheduled (e : JobEntry) (h : e.hasResult = true) :
    ∀ ops : List TableOp,
      (runTable e ⟨true, true⟩ ops).present = false ↔ hasTick ops = true := by
  intro ops
  induction ops with
  | nil => simp [runTable, hasTick]
  | cons op rest ih =>
    cases op with
    | fetch =>
      simp only [runTable, stepTable, h]
      simpa [hasTick] using ih
    | tick =>
      simp only [runTable, stepTable]
      simp [runTable_absorb, hasTick]

/-- C9 counterexample: two jobs that reached a terminal state.  A
*failed* job (no `progress.result`, `progress.error` set,
`complete: true`) survives any number of fetches — which answer 500 and
schedule nothing — and timeout periods: it is never evicted.  A
*successful* job that is never fetched likewise survives every timeout
period.  The claim's "evicted after a fixed TTL following terminal
state" is false for both. -/
theorem C9_counterexample :
    (runTable ⟨false, true, true⟩ initialSlot
      [TableOp.fetch, TableOp.tick, TableOp.fetch, TableOp.tick,
        TableOp.tick]).present = true ∧
    resultResponse ⟨false, true, true⟩ true = 500 ∧
    (runTable ⟨true, false, true⟩ initialSlot
      [TableOp.tick, TableOp.tick, TableOp.tick]).present = true := by
  refine ⟨?_, rfl, ?_⟩
  · decide
  · decide

/-- C9 (amended): a job's entry is evicted from the table *iff* its
result exists (so only successful jobs) and some `GET /api/result` call
retrieved it with a full 60-second timeout period elapsing afterwards.
In particular failed jobs, and successful jobs that are never fetched,
remain in the table forever — there is no TTL keyed to the terminal
state. -/
theorem C9_eviction_iff (e : JobEntry) (ops : List TableOp) :
    (runTable e initialSlot ops).present = false ↔
      e.hasResult = true ∧ fetchThenTick ops = true := by
  induction ops with
  | nil => simp [runTable, initialSlot, fetchThenTick]
  | cons op rest ih =>
    rcases hr : e.hasResult with _ | _
    · rw [runTable_no_result e hr]
      simp [initialSlot, hr]
    · cases op with
      | fetch =>
        have hstep : stepTable e initialSlot TableOp.fetch = ⟨true, true⟩ := by
          simp [stepTable, initialSlot, hr]
        simp only [runTable, hstep]
        rw [runTable_scheduled e hr rest]
        simp [fetchThenTick, hr]
      | tick =>
        have hstep : stepTable e initialSlot TableOp.tick = initialSlot := by
          simp [stepTable, initialSlot]
        simp only [runTable, hstep]
        rw [ih]
        simp [fetchThenTick, hr]

end SpotifySummary
